import Mathlib

set_option maxRecDepth 40000

/-!
Verification of the HausdorffImageFinder core against its specification.

The C++ sources are shallowly embedded:
  - `Image<Intensity>` (8-bit pixels, `!= 0` tested) becomes `GrayImage`
    with integer-valued pixel data;
  - `Image<Intensity32F>` (float distance fields compared as doubles)
    becomes `FloatImage` with rational-valued data; the program only
    reads, compares and maxes these values, so exact rationals model the
    float/double comparisons faithfully;
  - `std::numeric_limits<double>::min()` and `::max()` become the exact
    rational values `doubleMin = 2 ^ (-1022)` and
    `doubleMax = 2 ^ 1024 - 2 ^ 971`;
  - the four process-wide image pointers of main.cpp become the fields of
    a `Ctx` record passed to every search function;
  - the C++ for-loops become lists of the visited indices (produced by
    structurally recursive generators with a fuel argument that provably
    dominates the number of iterations) folded in the loop order.
-/

namespace HFind

/-- Image of 8-bit intensity pixels (C++ `Image<Intensity>`); pixel reads
outside the loops of the embedded code never happen, so `data` is total. -/
structure GrayImage where
  width : ℤ
  height : ℤ
  data : ℤ → ℤ → ℤ

/-- Image of float pixels (C++ `Image<Intensity32F>`), used for distance
fields; `data` is total so that the one-past-the-end reads the legacy
bounds test permits are modelled as reads of arbitrary memory. -/
structure FloatImage where
  width : ℤ
  height : ℤ
  data : ℤ → ℤ → ℚ

/-- Constant `MAX_HAUSDORFF_DISTANCE = 9999` from hausdorff.h line 19. -/
def MAX_HAUSDORFF_DISTANCE : ℚ := 9999

/-- Exact value of `std::numeric_limits<double>::min()` (smallest positive
normalized double, `2 ^ (-1022)`), used to initialize `maxDistance` in
hausdorff.h line 28. Written as a raw numerator/denominator pair so that
the kernel can evaluate comparisons against it; `doubleMin_eq` below checks
the value. -/
def doubleMin : ℚ := ⟨1, 2 ^ 1022, pow_ne_zero _ two_ne_zero, Nat.coprime_one_left _⟩

/-- Exact value of `std::numeric_limits<double>::max()`
(`2 ^ 1024 - 2 ^ 971`), used to initialize `bestDistance` in main.cpp
lines 43, 77 and 128. Written as a raw numerator/denominator pair; see
`doubleMax_eq`. -/
def doubleMax : ℚ := ⟨Int.ofNat (2 ^ 1024 - 2 ^ 971), 1, one_ne_zero, Nat.coprime_one_right _⟩

/-- Sanity link: `doubleMin` is the rational it is meant to denote. -/
theorem doubleMin_eq : doubleMin = 1 / 2 ^ 1022 := by
  rw [doubleMin, Rat.mk'_eq_divInt, Rat.divInt_eq_div]
  norm_num

/-- Sanity link: `doubleMax` is the rational it is meant to denote. -/
theorem doubleMax_eq : doubleMax = 2 ^ 1024 - 2 ^ 971 := by
  rw [doubleMax, Rat.mk'_eq_divInt, Rat.divInt_eq_div]
  norm_num

/-- The distance-field samples collected by the double loop of
`findHausdorffDistance` (hausdorff.h lines 31-55), in visit order: rows
`iy` ascending, skipped whole when `y = iy + offset.y` fails the legacy
test `y < 0 || y > imageB.height()`; in a surviving row, columns `ix`
ascending, a pixel contributing exactly when `imageA[iy][ix] == 0` (edge)
and `x = ix + offset.x` passes `x < 0 || x > imageB.width()`. -/
def sampledValues (imageA : GrayImage) (imageB : FloatImage) (off : ℤ × ℤ) : List ℚ :=
  (List.range imageA.height.toNat).flatMap (fun (iyn : ℕ) =>
    let iy : ℤ := (iyn : ℤ)
    let y := iy + off.2
    if y < 0 ∨ y > imageB.height then []
    else (List.range imageA.width.toNat).filterMap (fun (ixn : ℕ) =>
      let ix : ℤ := (ixn : ℤ)
      if imageA.data ix iy ≠ 0 then none
      else
        let x := ix + off.1
        if x < 0 ∨ x > imageB.width then none
        else some (imageB.data x y)))

/-- The `pointsConsidered` counter of hausdorff.h line 29/48: one increment
per collected sample. -/
def pointsConsidered (imageA : GrayImage) (imageB : FloatImage) (off : ℤ × ℤ) : ℕ :=
  (sampledValues imageA imageB off).length

/-- The running `maxDistance` accumulation of hausdorff.h lines 28, 49-53:
starts at `std::numeric_limits<double>::min()` and keeps the strictly
larger of the accumulator and each sample. -/
def runningMax (l : List ℚ) : ℚ :=
  l.foldl (fun m v => if v > m then v else m) doubleMin

/-- Embedding of `findHausdorffDistance` (hausdorff.h lines 21-58). -/
def findHausdorffDistance (imageA : GrayImage) (imageB : FloatImage) (off : ℤ × ℤ) : ℚ :=
  if pointsConsidered imageA imageB off = 0 then MAX_HAUSDORFF_DISTANCE
  else runningMax (sampledValues imageA imageB off)

/-- The four process-wide image pointers of main.cpp lines 20-26, bundled
as one record (the searches read them as globals). -/
structure Ctx where
  needleEdges : GrayImage
  needleDT : FloatImage
  haystackEdges : GrayImage
  haystackDT : FloatImage

/-- The scalar computed for one offset by the loop body of
`findBestTranslation` (main.cpp lines 51-53): the maximum of the forward
distance at `(x, y)` and the reverse distance at `(-x, -y)`. -/
def symObjective (c : Ctx) (x y : ℤ) : ℚ :=
  max (findHausdorffDistance c.needleEdges c.haystackDT (x, y))
      (findHausdorffDistance c.haystackEdges c.needleDT (-x, -y))

/-- Written from the specification text of SymmetricObjective (spec 4.2):
the maximum of `directedDistance(needleEdges, haystackField, offset)` and
`directedDistance(haystackEdges, needleField, -offset)`, with the negation
taken on the offset as a vector. Compared against `symObjective`, the
definition read off the code, in claim C4. -/
def specSymmetricDistance (c : Ctx) (off : ℤ × ℤ) : ℚ :=
  max (findHausdorffDistance c.needleEdges c.haystackDT off)
      (findHausdorffDistance c.haystackEdges c.needleDT (-off))

/-- Modelled from the spec: the external distance-transform collaborator
(`cvDistTransform` with `CV_DIST_L1`, spec 6), which is not part of this
repository. The value at a pixel is the L1 distance to the nearest
on-edge (zero) pixel of the companion edge image; an edge-free image gets
the all-zero field (the spec only constrains the non-empty case). -/
def edgePointList (a : GrayImage) : List (ℤ × ℤ) :=
  (List.range a.height.toNat).flatMap (fun (iyn : ℕ) =>
    (List.range a.width.toNat).filterMap (fun (ixn : ℕ) =>
      if a.data (ixn : ℤ) (iyn : ℤ) = 0 then some (((ixn : ℤ), (iyn : ℤ)) : ℤ × ℤ) else none))

/-- Modelled from the spec: L1 distance between two grid points, as a
rational. -/
def l1dist (p q : ℤ × ℤ) : ℚ :=
  (((p.1 - q.1).natAbs + (p.2 - q.2).natAbs : ℕ) : ℚ)

/-- Modelled from the spec: the distance field of an edge image (see
`edgePointList`). -/
def distanceFieldOf (a : GrayImage) : FloatImage :=
  { width := a.width, height := a.height,
    data := fun x y =>
      match edgePointList a with
      | [] => 0
      | p :: ps => ps.foldl (fun m q => min m (l1dist (x, y) q)) (l1dist (x, y) p) }

/-- Needle input for the C1 boundary experiment: a single on-edge pixel at
the origin of a 1 by 1 edge image. -/
def quirkNeedle : GrayImage :=
  { width := 1, height := 1, data := fun x y => if x = 0 ∧ y = 0 then 0 else 255 }

/-- Distance field for the C1 boundary experiment: width 2, height 1; its
in-range columns hold 3 while the out-of-range column `x = 2 = width`
holds 7, so a result of 7 can only come from sampling one past the end. -/
def quirkField : FloatImage :=
  { width := 2, height := 1, data := fun x y => if x = 2 ∧ y = 0 then 7 else 3 }

/-- C1: the claim says a needle point whose mapped x equals the field
width is skipped and contributes nothing. Evaluating the embedded code on
a needle whose only edge point maps to `x = width = 2` shows the point is
considered (the legacy test `x > width` lets `x = width` through) and its
out-of-range sample 7 becomes the returned distance, contradicting the
claim; the specification itself calls this the undesirable legacy quirk. -/
theorem C1_boundary_quirk_eval :
    pointsConsidered quirkNeedle quirkField (2, 0) = 1 ∧
    findHausdorffDistance quirkNeedle quirkField (2, 0) = 7 := by
  decide

/-- Edge set for the C2 self-distance experiment: one on-edge pixel. -/
def selfEdgeSet : GrayImage :=
  { width := 1, height := 1, data := fun x y => if x = 0 ∧ y = 0 then 0 else 255 }

/-- C2: the claim says the directed distance of a non-empty edge set
against its own distance field at offset (0,0) is exactly 0. The embedded
code instead returns `doubleMin = 2 ^ (-1022)`: `maxDistance` starts at
`std::numeric_limits<double>::min()`, which is the smallest positive
normalized double, and the sampled distances of 0 never exceed it, so the
positive initial value is returned unchanged. -/
theorem C2_self_distance_not_zero :
    findHausdorffDistance selfEdgeSet (distanceFieldOf selfEdgeSet) (0, 0) = doubleMin ∧
    doubleMin ≠ 0 := by
  decide

/-- Helper for C3: an edge image with no on-edge pixel inside its bounds
produces no samples at any offset against any field. -/
theorem sampledValues_nil_of_no_edges (a : GrayImage) (b : FloatImage) (off : ℤ × ℤ)
    (h : ∀ ix iy : ℤ, 0 ≤ ix → ix < a.width → 0 ≤ iy → iy < a.height → a.data ix iy ≠ 0) :
    sampledValues a b off = [] := by
  unfold sampledValues
  rw [List.flatMap_eq_nil_iff]
  intro iyn hiy
  have hiy2 : (iyn : ℤ) < a.height := by
    have := List.mem_range.mp hiy
    omega
  simp only []
  split
  · rfl
  · rw [List.filterMap_eq_nil_iff]
    intro ixn hix
    have hix2 : (ixn : ℤ) < a.width := by
      have := List.mem_range.mp hix
      omega
    have hne := h (ixn : ℤ) (iyn : ℤ) (by omega) hix2 (by omega) hiy2
    simp only [if_pos hne]

/-- C3: whenever the loop of `findHausdorffDistance` considers zero points
(in particular whenever the edge set has no on-edge pixel at all), the
function returns exactly the sentinel `MAX_HAUSDORFF_DISTANCE = 9999`,
regardless of the offset and of the field contents. -/
theorem C3_sentinel_on_zero_points (a : GrayImage) (b : FloatImage) (off : ℤ × ℤ)
    (h : pointsConsidered a b off = 0 ∨
      ∀ ix iy : ℤ, 0 ≤ ix → ix < a.width → 0 ≤ iy → iy < a.height → a.data ix iy ≠ 0) :
    findHausdorffDistance a b off = MAX_HAUSDORFF_DISTANCE := by
  rcases h with h | h
  · unfold findHausdorffDistance
    rw [if_pos h]
  · have hnil : sampledValues a b off = [] := sampledValues_nil_of_no_edges a b off h
    unfold findHausdorffDistance pointsConsidered
    rw [hnil]
    rfl

/-- Witness inputs for C3: a needle whose only edge point maps to
`x = -5`, strictly out of bounds, so zero points are considered. -/
def allEdge1 : GrayImage :=
  { width := 1, height := 1, data := fun _ _ => 0 }

/-- Witness field for C3. -/
def plainField : FloatImage :=
  { width := 4, height := 4, data := fun _ _ => 2 }

/-- Witness for C3 at a concrete input. -/
theorem C3_sentinel_witness :
    pointsConsidered allEdge1 plainField (-5, 0) = 0 ∧
    findHausdorffDistance allEdge1 plainField (-5, 0) = MAX_HAUSDORFF_DISTANCE :=
  ⟨by decide, C3_sentinel_on_zero_points allEdge1 plainField (-5, 0) (Or.inl (by decide))⟩

/-- C4: the scalar evaluated by the translation search at an offset
`(x, y)` (main.cpp lines 51-53) is the maximum of the forward directed
distance at that offset and the reverse directed distance at the negated
offset, exactly the symmetric objective of the specification. -/
theorem C4_symmetric_objective_eq_spec (c : Ctx) (x y : ℤ) :
    symObjective c x y = specSymmetricDistance c (x, y) := by
  simp [symObjective, specSymmetricDistance, Prod.neg_mk]

/-- Fuel-indexed embedding of the C++ counting loop
`for (v = lo; v < hi; v += step)`: the list of visited loop values. The
fuel only bounds the recursion depth; when `step >= 1`, `(hi - lo).toNat`
rounds always suffice because every round advances `lo` by at least one,
and when the loop guard fails the list is empty whatever the fuel, so
`offsets` below visits exactly the values the C++ loop visits. -/
def offsetsAux : ℕ → ℤ → ℤ → ℤ → List ℤ
  | 0, _, _, _ => []
  | fuel + 1, lo, hi, step =>
    if lo < hi ∧ 0 < step then lo :: offsetsAux fuel (lo + step) hi step else []

/-- Values visited by `for (v = lo; v < hi; v += step)` with `step > 0`. -/
def offsets (lo hi step : ℤ) : List ℤ :=
  offsetsAux (hi - lo).toNat lo hi step

/-- Every visited loop value lies in the half-open interval. -/
theorem mem_offsetsAux {step : ℤ} :
    ∀ {f : ℕ} {lo hi x : ℤ}, x ∈ offsetsAux f lo hi step → lo ≤ x ∧ x < hi := by
  intro f
  induction f with
  | zero =>
      intro lo hi x hx
      cases hx
  | succ f ih =>
      intro lo hi x hx
      simp only [offsetsAux] at hx
      split at hx
      · next hg =>
          rcases List.mem_cons.mp hx with rfl | hx2
          · exact ⟨le_refl _, hg.1⟩
          · have h2 := ih hx2
            have := hg.2
            exact ⟨by omega, h2.2⟩
      · cases hx

/-- Membership bound for `offsets`. -/
theorem mem_offsets {lo hi step x : ℤ} (hx : x ∈ offsets lo hi step) :
    lo ≤ x ∧ x < hi :=
  mem_offsetsAux hx

/-- A loop with a true guard visits its start value first. -/
theorem offsets_head {lo hi step : ℤ} (h1 : lo < hi) (h2 : 0 < step) :
    ∃ t, offsets lo hi step = lo :: t := by
  unfold offsets
  obtain ⟨k, hk⟩ : ∃ k, (hi - lo).toNat = k + 1 := ⟨(hi - lo).toNat - 1, by omega⟩
  rw [hk]
  simp only [offsetsAux]
  rw [if_pos ⟨h1, h2⟩]
  exact ⟨_, rfl⟩

/-- A loop with a false guard visits nothing. -/
theorem offsets_nil {lo hi step : ℤ} (h : hi ≤ lo) : offsets lo hi step = [] := by
  unfold offsets
  have hz : (hi - lo).toNat = 0 := by omega
  rw [hz]
  rfl

/-- With step 1 and enough fuel, the loop visits every value of the
half-open interval. -/
theorem mem_offsetsAux_one {x hi : ℤ} :
    ∀ {f : ℕ} {lo : ℤ}, (hi - lo).toNat ≤ f → lo ≤ x → x < hi → x ∈ offsetsAux f lo hi 1 := by
  intro f
  induction f with
  | zero =>
      intro lo hf h1 h2
      omega
  | succ f ih =>
      intro lo hf h1 h2
      simp only [offsetsAux]
      rw [if_pos ⟨by omega, by norm_num⟩]
      rcases eq_or_lt_of_le h1 with rfl | hlt
      · exact List.mem_cons_self _ _
      · exact List.mem_cons_of_mem _ (ih (by omega) (by omega) h2)

/-- With step 1, `offsets` visits every value of the interval. -/
theorem mem_offsets_one {lo hi x : ℤ} (h1 : lo ≤ x) (h2 : x < hi) :
    x ∈ offsets lo hi 1 :=
  mem_offsetsAux_one (le_refl _) h1 h2

/-- Row-major enumeration of the double loop of `findBestTranslation`
(main.cpp lines 47-49): outer loop y ascending, inner loop x ascending. -/
def rowMajorOffsets (minX minY mX mY step : ℤ) : List (ℤ × ℤ) :=
  (offsets minY mY step).flatMap (fun y =>
    (offsets minX mX step).map (fun x => ((x, y) : ℤ × ℤ)))

/-- Membership in the row-major grid, componentwise. -/
theorem mem_rowMajorOffsets {p : ℤ × ℤ} {minX minY mX mY step : ℤ} :
    p ∈ rowMajorOffsets minX minY mX mY step ↔
      p.1 ∈ offsets minX mX step ∧ p.2 ∈ offsets minY mY step := by
  unfold rowMajorOffsets
  rw [List.mem_flatMap]
  constructor
  · rintro ⟨y, hy, hp⟩
    rw [List.mem_map] at hp
    obtain ⟨x, hx, rfl⟩ := hp
    exact ⟨hx, hy⟩
  · rintro ⟨h1, h2⟩
    exact ⟨p.2, h2, List.mem_map.mpr ⟨p.1, h1, rfl⟩⟩

/-- A non-empty window is scanned starting at its low corner. -/
theorem rowMajorOffsets_head {minX minY mX mY step : ℤ}
    (hx : minX < mX) (hy : minY < mY) (hs : 0 < step) :
    ∃ t, rowMajorOffsets minX minY mX mY step = ((minX, minY) : ℤ × ℤ) :: t := by
  obtain ⟨ty, hty⟩ := offsets_head hy hs
  obtain ⟨tx, htx⟩ := offsets_head hx hs
  refine ⟨tx.map (fun x => ((x, minY) : ℤ × ℤ)) ++
    ty.flatMap (fun y => (offsets minX mX step).map (fun x => ((x, y) : ℤ × ℤ))), ?_⟩
  unfold rowMajorOffsets
  rw [hty, List.flatMap_cons, htx, List.map_cons, List.cons_append]

/-- One update of the running best of main.cpp lines 55-60: the
accumulator is replaced exactly when the new distance is strictly
smaller, so ties keep the earlier candidate. -/
def selBest (f : (ℤ × ℤ) → ℚ) (acc : (ℤ × ℤ) × ℚ) (p : ℤ × ℤ) : (ℤ × ℤ) × ℚ :=
  if f p < acc.2 then (p, f p) else acc

/-- The running best never increases. -/
theorem foldl_selBest_le_init (f : (ℤ × ℤ) → ℚ) (l : List (ℤ × ℤ)) (acc : (ℤ × ℤ) × ℚ) :
    (l.foldl (selBest f) acc).2 ≤ acc.2 := by
  induction l generalizing acc with
  | nil => exact le_refl _
  | cons p t ih =>
      simp only [List.foldl_cons]
      refine le_trans (ih (selBest f acc p)) ?_
      unfold selBest
      split
      · next h => exact le_of_lt h
      · exact le_refl _

/-- If no candidate strictly beats the accumulator, nothing changes. -/
theorem foldl_selBest_stall (f : (ℤ × ℤ) → ℚ) (l : List (ℤ × ℤ)) (acc : (ℤ × ℤ) × ℚ)
    (h : ∀ p ∈ l, acc.2 ≤ f p) : l.foldl (selBest f) acc = acc := by
  induction l with
  | nil => rfl
  | cons p t ih =>
      have hp : acc.2 ≤ f p := h p (List.mem_cons_self _ _)
      have hkeep : selBest f acc p = acc := by
        unfold selBest
        rw [if_neg (not_lt.mpr hp)]
      simp only [List.foldl_cons, hkeep]
      exact ih (fun q hq => h q (List.mem_cons_of_mem _ hq))

/-- The final best is a lower bound of every scanned value. -/
theorem foldl_selBest_lb (f : (ℤ × ℤ) → ℚ) (l : List (ℤ × ℤ)) (acc : (ℤ × ℤ) × ℚ)
    (p : ℤ × ℤ) (hp : p ∈ l) : (l.foldl (selBest f) acc).2 ≤ f p := by
  induction l generalizing acc with
  | nil => cases hp
  | cons q t ih =>
      simp only [List.foldl_cons]
      rcases List.mem_cons.mp hp with rfl | h2
      · refine le_trans (foldl_selBest_le_init f t (selBest f acc p)) ?_
        unfold selBest
        split
        · exact le_refl _
        · next h => exact not_lt.mp h
      · exact ih (selBest f acc q) h2

/-- The final accumulator is either the initial one or a scanned
candidate paired with its own value. -/
theorem foldl_selBest_cases (f : (ℤ × ℤ) → ℚ) (l : List (ℤ × ℤ)) (acc : (ℤ × ℤ) × ℚ) :
    l.foldl (selBest f) acc = acc ∨
      ((l.foldl (selBest f) acc).1 ∈ l ∧
        f (l.foldl (selBest f) acc).1 = (l.foldl (selBest f) acc).2) := by
  induction l generalizing acc with
  | nil => exact Or.inl rfl
  | cons p t ih =>
      simp only [List.foldl_cons]
      rcases ih (selBest f acc p) with h | h
      · rw [h]
        unfold selBest
        split
        · exact Or.inr ⟨List.mem_cons_self _ _, rfl⟩
        · exact Or.inl rfl
      · exact Or.inr ⟨List.mem_cons_of_mem _ h.1, h.2⟩

/-- Strict-improvement folding returns the first candidate attaining the
minimum: the scan decomposes around the final best, everything before it
being strictly larger. -/
theorem foldl_selBest_first (f : (ℤ × ℤ) → ℚ) (l : List (ℤ × ℤ)) (acc : (ℤ × ℤ) × ℚ)
    (h : ∃ p ∈ l, f p < acc.2) :
    ∃ pre post, l = pre ++ (l.foldl (selBest f) acc).1 :: post ∧
      f (l.foldl (selBest f) acc).1 = (l.foldl (selBest f) acc).2 ∧
      ∀ q ∈ pre, (l.foldl (selBest f) acc).2 < f q := by
  induction l generalizing acc with
  | nil =>
      obtain ⟨p, hp, _⟩ := h
      cases hp
  | cons p t ih =>
      simp only [List.foldl_cons]
      by_cases hcase : f p < acc.2
      · have hupd : selBest f acc p = (p, f p) := by
          unfold selBest
          rw [if_pos hcase]
        rw [hupd]
        by_cases hbetter : ∃ q ∈ t, f q < f p
        · obtain ⟨pre, post, hdec, hfeq, hpre⟩ := ih (p, f p) hbetter
          refine ⟨p :: pre, post,
            by rw [List.cons_append]; exact congrArg (List.cons p) hdec, hfeq, ?_⟩
          intro q hq
          rcases List.mem_cons.mp hq with rfl | hq2
          · obtain ⟨q0, hq0, hlt⟩ := hbetter
            exact lt_of_le_of_lt (foldl_selBest_lb f t (q, f q) q0 hq0) hlt
          · exact hpre q hq2
        · push_neg at hbetter
          have hst : t.foldl (selBest f) (p, f p) = (p, f p) :=
            foldl_selBest_stall f t (p, f p) hbetter
          rw [hst]
          exact ⟨[], t, rfl, rfl, by intro q hq; cases hq⟩
      · have hkeep : selBest f acc p = acc := by
          unfold selBest
          rw [if_neg hcase]
        rw [hkeep]
        have hex : ∃ q ∈ t, f q < acc.2 := by
          obtain ⟨q, hq, hlt⟩ := h
          rcases List.mem_cons.mp hq with rfl | hq2
          · exact absurd hlt hcase
          · exact ⟨q, hq2, hlt⟩
        obtain ⟨pre, post, hdec, hfeq, hpre⟩ := ih acc hex
        refine ⟨p :: pre, post,
          by rw [List.cons_append]; exact congrArg (List.cons p) hdec, hfeq, ?_⟩
        intro q hq
        rcases List.mem_cons.mp hq with rfl | hq2
        · obtain ⟨qw, hqw, hlt⟩ := hex
          exact lt_of_le_of_lt (foldl_selBest_lb f t acc qw hqw)
            (lt_of_lt_of_le hlt (not_lt.mp hcase))
        · exact hpre q hq2

/-- Effective x bound of the scan window (main.cpp line 45): the value
`-1` selects the absolute bound derived from the image widths. -/
def effectiveMaxX (c : Ctx) (maxX : ℤ) : ℤ :=
  if maxX ≠ -1 then maxX else c.haystackDT.width - c.needleEdges.width

/-- Effective y bound of the scan window (main.cpp line 46). -/
def effectiveMaxY (c : Ctx) (maxY : ℤ) : ℤ :=
  if maxY ≠ -1 then maxY else c.haystackDT.height - c.needleEdges.height

/-- Conversion applied when the int loop variable is stored into the
`unsigned bestX / bestY` of main.cpp lines 41-42: reduction modulo 2^32
(the Euclidean remainder, always in `[0, 2^32)`). -/
def toUnsigned32 (x : ℤ) : ℤ := x % 2 ^ 32

/-- Conversion applied when the stored `unsigned` is passed back through
`cvPoint` as an int (main.cpp line 67). -/
def ofUnsigned32 (u : ℤ) : ℤ := if u < 2 ^ 31 then u else u - 2 ^ 32

/-- The two conversions cancel on the values of a well-formed scan. -/
theorem unsigned_roundtrip {x : ℤ} (h0 : 0 ≤ x) (h1 : x < 2 ^ 31) :
    ofUnsigned32 (toUnsigned32 x) = x := by
  unfold ofUnsigned32 toUnsigned32
  rw [Int.emod_eq_of_lt h0 (by omega), if_pos h1]

/-- The grid scan of `findBestTranslation` (main.cpp lines 40-62): the
row-major double loop folding the strict-improvement update over the
window grid, started at `(0, 0)` with
`std::numeric_limits<double>::max()`. -/
def scanBest (c : Ctx) (step minX minY maxX maxY : ℤ) : (ℤ × ℤ) × ℚ :=
  (rowMajorOffsets minX minY (effectiveMaxX c maxX) (effectiveMaxY c maxY) step).foldl
    (selBest (fun p => symObjective c p.1 p.2)) (((0, 0) : ℤ × ℤ), doubleMax)

/-- Embedding of `findBestTranslation` (main.cpp lines 36-68): run the
grid scan and return the best point after its round trip through the
`unsigned bestX / bestY` variables, together with the best distance. -/
def findBestTranslation (c : Ctx) (step minX minY maxX maxY : ℤ) : (ℤ × ℤ) × ℚ :=
  ((ofUnsigned32 (toUnsigned32 (scanBest c step minX minY maxX maxY).1.1),
    ofUnsigned32 (toUnsigned32 (scanBest c step minX minY maxX maxY).1.2)),
   (scanBest c step minX minY maxX maxY).2)

/-- The returned distance is the scanned best distance. -/
theorem findBestTranslation_snd (c : Ctx) (step minX minY maxX maxY : ℤ) :
    (findBestTranslation c step minX minY maxX maxY).2
      = (scanBest c step minX minY maxX maxY).2 :=
  rfl

/-- The returned distance is at most the objective of any grid point. -/
theorem findBestTranslation_snd_le (c : Ctx) (step minX minY maxX maxY : ℤ) {q : ℤ × ℤ}
    (hq : q ∈ rowMajorOffsets minX minY (effectiveMaxX c maxX) (effectiveMaxY c maxY) step) :
    (findBestTranslation c step minX minY maxX maxY).2 ≤ symObjective c q.1 q.2 :=
  foldl_selBest_lb _ _ _ q hq

/-- The returned distance never exceeds the initial accumulator. -/
theorem findBestTranslation_snd_le_doubleMax (c : Ctx) (step minX minY maxX maxY : ℤ) :
    (findBestTranslation c step minX minY maxX maxY).2 ≤ doubleMax :=
  foldl_selBest_le_init _ _ _

/-- Any lower bound of the scanned objectives (up to the initial
accumulator) bounds the returned distance from below. -/
theorem findBestTranslation_snd_ge (c : Ctx) (step minX minY maxX maxY : ℤ) (B : ℚ)
    (hB : B ≤ doubleMax)
    (hgrid : ∀ q ∈ rowMajorOffsets minX minY (effectiveMaxX c maxX) (effectiveMaxY c maxY) step,
      B ≤ symObjective c q.1 q.2) :
    B ≤ (findBestTranslation c step minX minY maxX maxY).2 := by
  rw [findBestTranslation_snd]
  rcases foldl_selBest_cases (fun p => symObjective c p.1 p.2)
    (rowMajorOffsets minX minY (effectiveMaxX c maxX) (effectiveMaxY c maxY) step)
    (((0, 0) : ℤ × ℤ), doubleMax) with h | h
  · unfold scanBest
    rw [h]
    exact hB
  · unfold scanBest
    rw [← h.2]
    exact hgrid _ h.1

/-- When the returned distance is below the initial accumulator, the
returned point equals the raw scanned best point: the unsigned round
trip is the identity on it. -/
theorem findBestTranslation_fst_eq (c : Ctx) (step minX minY maxX maxY : ℤ)
    (h0x : 0 ≤ minX) (h0y : 0 ≤ minY)
    (hbx : effectiveMaxX c maxX ≤ 2 ^ 31) (hby : effectiveMaxY c maxY ≤ 2 ^ 31)
    (hlt : (findBestTranslation c step minX minY maxX maxY).2 < doubleMax) :
    (findBestTranslation c step minX minY maxX maxY).1
      = (scanBest c step minX minY maxX maxY).1 ∧
    (scanBest c step minX minY maxX maxY).1
      ∈ rowMajorOffsets minX minY (effectiveMaxX c maxX) (effectiveMaxY c maxY) step ∧
    symObjective c (scanBest c step minX minY maxX maxY).1.1
        (scanBest c step minX minY maxX maxY).1.2
      = (scanBest c step minX minY maxX maxY).2 := by
  rw [findBestTranslation_snd] at hlt
  rcases foldl_selBest_cases (fun p => symObjective c p.1 p.2)
    (rowMajorOffsets minX minY (effectiveMaxX c maxX) (effectiveMaxY c maxY) step)
    (((0, 0) : ℤ × ℤ), doubleMax) with h | h
  · exfalso
    have h2 : (scanBest c step minX minY maxX maxY).2 = doubleMax := by
      unfold scanBest
      rw [h]
    rw [h2] at hlt
    exact lt_irrefl _ hlt
  · have h1 : (scanBest c step minX minY maxX maxY).1
        ∈ rowMajorOffsets minX minY (effectiveMaxX c maxX) (effectiveMaxY c maxY) step := h.1
    have hb := mem_rowMajorOffsets.mp h1
    have hx := mem_offsets hb.1
    have hy := mem_offsets hb.2
    refine ⟨?_, h1, h.2⟩
    unfold findBestTranslation
    rw [unsigned_roundtrip (by omega) (by omega), unsigned_roundtrip (by omega) (by omega)]

/-- When the returned distance is below the initial accumulator, the
returned point is a grid point achieving exactly that distance. -/
theorem findBestTranslation_exact (c : Ctx) (step minX minY maxX maxY : ℤ)
    (h0x : 0 ≤ minX) (h0y : 0 ≤ minY)
    (hbx : effectiveMaxX c maxX ≤ 2 ^ 31) (hby : effectiveMaxY c maxY ≤ 2 ^ 31)
    (hlt : (findBestTranslation c step minX minY maxX maxY).2 < doubleMax) :
    (findBestTranslation c step minX minY maxX maxY).1
      ∈ rowMajorOffsets minX minY (effectiveMaxX c maxX) (effectiveMaxY c maxY) step ∧
    symObjective c (findBestTranslation c step minX minY maxX maxY).1.1
        (findBestTranslation c step minX minY maxX maxY).1.2
      = (findBestTranslation c step minX minY maxX maxY).2 := by
  obtain ⟨hfst, hmem, hval⟩ :=
    findBestTranslation_fst_eq c step minX minY maxX maxY h0x h0y hbx hby hlt
  rw [findBestTranslation_snd, hfst]
  exact ⟨hmem, hval⟩

/-- C5: for positive step and a non-empty window inside the valid
nonnegative coordinate range, `findBestTranslation` returns a grid offset
of the window achieving the minimal symmetric objective over the whole
enumerated grid, together with that minimal value, and among equal
minima it returns the first offset in row-major order: every strictly
earlier grid offset has a strictly larger objective. -/
theorem C5_translation_search_first_min (c : Ctx) (step minX minY maxX maxY : ℤ)
    (hstep : 0 < step) (h0x : 0 ≤ minX) (h0y : 0 ≤ minY)
    (hbx : effectiveMaxX c maxX ≤ 2 ^ 31) (hby : effectiveMaxY c maxY ≤ 2 ^ 31)
    (hnex : minX < effectiveMaxX c maxX) (hney : minY < effectiveMaxY c maxY)
    (hbound : ∀ q ∈ rowMajorOffsets minX minY (effectiveMaxX c maxX) (effectiveMaxY c maxY) step,
      symObjective c q.1 q.2 < doubleMax) :
    ∃ pre post,
      rowMajorOffsets minX minY (effectiveMaxX c maxX) (effectiveMaxY c maxY) step
        = pre ++ (findBestTranslation c step minX minY maxX maxY).1 :: post ∧
      symObjective c (findBestTranslation c step minX minY maxX maxY).1.1
          (findBestTranslation c step minX minY maxX maxY).1.2
        = (findBestTranslation c step minX minY maxX maxY).2 ∧
      (∀ q ∈ pre, (findBestTranslation c step minX minY maxX maxY).2 < symObjective c q.1 q.2) ∧
      (∀ q ∈ rowMajorOffsets minX minY (effectiveMaxX c maxX) (effectiveMaxY c maxY) step,
        (findBestTranslation c step minX minY maxX maxY).2 ≤ symObjective c q.1 q.2) := by
  obtain ⟨t, ht⟩ := rowMajorOffsets_head hnex hney hstep
  have hmem : ((minX, minY) : ℤ × ℤ)
      ∈ rowMajorOffsets minX minY (effectiveMaxX c maxX) (effectiveMaxY c maxY) step := by
    rw [ht]
    exact List.mem_cons_self _ _
  have hex : ∃ p ∈ rowMajorOffsets minX minY (effectiveMaxX c maxX) (effectiveMaxY c maxY) step,
      symObjective c p.1 p.2 < ((((0, 0) : ℤ × ℤ), doubleMax) : (ℤ × ℤ) × ℚ).2 :=
    ⟨(minX, minY), hmem, hbound _ hmem⟩
  obtain ⟨pre, post, hdec, hfeq, hpre⟩ := foldl_selBest_first
    (fun p => symObjective c p.1 p.2)
    (rowMajorOffsets minX minY (effectiveMaxX c maxX) (effectiveMaxY c maxY) step)
    (((0, 0) : ℤ × ℤ), doubleMax) hex
  have hlt : (findBestTranslation c step minX minY maxX maxY).2 < doubleMax := by
    have := findBestTranslation_snd_le c step minX minY maxX maxY hmem
    exact lt_of_le_of_lt this (hbound _ hmem)
  obtain ⟨hfst, _, _⟩ :=
    findBestTranslation_fst_eq c step minX minY maxX maxY h0x h0y hbx hby hlt
  refine ⟨pre, post, ?_, ?_, ?_, ?_⟩
  · rw [hfst]
    exact hdec
  · rw [findBestTranslation_snd, hfst]
    exact hfeq
  · intro q hq
    rw [findBestTranslation_snd]
    exact hpre q hq
  · intro q hq
    exact findBestTranslation_snd_le c step minX minY maxX maxY hq

/-- Witness needle: a single-pixel edge image (its one pixel is on-edge). -/
def tinyNeedle : GrayImage :=
  { width := 1, height := 1, data := fun _ _ => 0 }

/-- Witness needle distance field: the honest L1 field of `tinyNeedle`. -/
def tinyNeedleDT : FloatImage :=
  { width := 1, height := 1, data := fun x y => ((x.natAbs + y.natAbs : ℕ) : ℚ) }

/-- Witness haystack edges: 2 by 2 with a single edge pixel at the origin. -/
def tinyHayEdges : GrayImage :=
  { width := 2, height := 2, data := fun x y => if x = 0 ∧ y = 0 then 0 else 255 }

/-- Witness haystack distance field: the honest L1 field of `tinyHayEdges`. -/
def tinyHayDT : FloatImage :=
  { width := 2, height := 2, data := fun x y => ((x.natAbs + y.natAbs : ℕ) : ℚ) }

/-- Witness context bundling the four tiny images. -/
def tinyCtx : Ctx :=
  { needleEdges := tinyNeedle, needleDT := tinyNeedleDT,
    haystackEdges := tinyHayEdges, haystackDT := tinyHayDT }

/-- Witness for C5 at a concrete input: the 1 by 1 window of `tinyCtx`. -/
theorem C5_translation_search_witness :
    ((0:ℤ) < 1 ∧ (0:ℤ) ≤ 0 ∧ effectiveMaxX tinyCtx 1 ≤ 2 ^ 31 ∧ effectiveMaxY tinyCtx 1 ≤ 2 ^ 31 ∧
      (0:ℤ) < effectiveMaxX tinyCtx 1 ∧ (0:ℤ) < effectiveMaxY tinyCtx 1 ∧
      (∀ q ∈ rowMajorOffsets 0 0 (effectiveMaxX tinyCtx 1) (effectiveMaxY tinyCtx 1) 1,
        symObjective tinyCtx q.1 q.2 < doubleMax)) ∧
    (∃ pre post,
      rowMajorOffsets 0 0 (effectiveMaxX tinyCtx 1) (effectiveMaxY tinyCtx 1) 1
        = pre ++ (findBestTranslation tinyCtx 1 0 0 1 1).1 :: post ∧
      symObjective tinyCtx (findBestTranslation tinyCtx 1 0 0 1 1).1.1
          (findBestTranslation tinyCtx 1 0 0 1 1).1.2
        = (findBestTranslation tinyCtx 1 0 0 1 1).2 ∧
      (∀ q ∈ pre, (findBestTranslation tinyCtx 1 0 0 1 1).2 < symObjective tinyCtx q.1 q.2) ∧
      (∀ q ∈ rowMajorOffsets 0 0 (effectiveMaxX tinyCtx 1) (effectiveMaxY tinyCtx 1) 1,
        (findBestTranslation tinyCtx 1 0 0 1 1).2 ≤ symObjective tinyCtx q.1 q.2)) :=
  ⟨⟨by decide, by decide, by decide, by decide, by decide, by decide, by decide⟩,
    C5_translation_search_first_min tinyCtx 1 0 0 1 1 (by decide) (by decide) (by decide)
      (by decide) (by decide) (by decide) (by decide) (by decide)⟩

/-- C10: for positive step, when the effective window is empty (its low
x bound is at or past its high x bound, or likewise for y), the scan of
`findBestTranslation` visits no offset at all and the function returns
the offset `(0, 0)` paired with the largest representable double, rather
than signalling an error. -/
theorem C10_empty_window_result (c : Ctx) (step minX minY maxX maxY : ℤ)
    (hstep : 0 < step)
    (hempty : effectiveMaxX c maxX ≤ minX ∨ effectiveMaxY c maxY ≤ minY) :
    findBestTranslation c step minX minY maxX maxY = (((0, 0) : ℤ × ℤ), doubleMax) ∧
    rowMajorOffsets minX minY (effectiveMaxX c maxX) (effectiveMaxY c maxY) step = [] := by
  have hgrid : rowMajorOffsets minX minY (effectiveMaxX c maxX) (effectiveMaxY c maxY) step
      = [] := by
    rcases hempty with h | h
    · unfold rowMajorOffsets
      rw [List.flatMap_eq_nil_iff]
      intro y hy
      rw [offsets_nil h]
      rfl
    · unfold rowMajorOffsets
      rw [offsets_nil h]
      rfl
  refine ⟨?_, hgrid⟩
  have hsB : scanBest c step minX minY maxX maxY = (((0, 0) : ℤ × ℤ), doubleMax) := by
    unfold scanBest
    rw [hgrid]
    rfl
  unfold findBestTranslation
  rw [hsB]
  decide

/-- Witness for C10 at a concrete input: an explicitly empty window. -/
theorem C10_empty_window_witness :
    ((0:ℤ) < 1 ∧ (effectiveMaxX tinyCtx 0 ≤ 0 ∨ effectiveMaxY tinyCtx 1 ≤ 0)) ∧
    (findBestTranslation tinyCtx 1 0 0 0 1 = (((0, 0) : ℤ × ℤ), doubleMax) ∧
      rowMajorOffsets 0 0 (effectiveMaxX tinyCtx 0) (effectiveMaxY tinyCtx 1) 1 = []) :=
  ⟨⟨by decide, by decide⟩,
    C10_empty_window_result tinyCtx 1 0 0 0 1 (by decide) (by decide)⟩

/-- Absolute x bound of valid offsets (main.cpp line 82). -/
def absMaxX (c : Ctx) : ℤ := c.haystackDT.width - c.needleEdges.width

/-- Absolute y bound of valid offsets (main.cpp line 83). -/
def absMaxY (c : Ctx) : ℤ := c.haystackDT.height - c.needleEdges.height

/-- State of the refinement loop of `findBestTranslationRecursive`
(main.cpp lines 77-85): the running best distance and translation and
the current window. -/
structure RecState where
  bestDistance : ℚ
  bestTranslation : ℤ × ℤ
  minX : ℤ
  minY : ℤ
  maxX : ℤ
  maxY : ℤ
  deriving DecidableEq

/-- One round of the refinement loop (main.cpp lines 89-103): run
`findBestTranslation` on the current window; on strict improvement
record the new best and recenter the window around it, clamping the low
corner at 0 and the high corner at the absolute bounds; otherwise leave
the state unchanged. -/
def recStep (c : Ctx) (step : ℤ) (st : RecState) : RecState :=
  if (findBestTranslation c step st.minX st.minY st.maxX st.maxY).2 < st.bestDistance then
    { bestDistance := (findBestTranslation c step st.minX st.minY st.maxX st.maxY).2,
      bestTranslation := (findBestTranslation c step st.minX st.minY st.maxX st.maxY).1,
      minX := max 0 ((findBestTranslation c step st.minX st.minY st.maxX st.maxY).1.1 - step),
      minY := max 0 ((findBestTranslation c step st.minX st.minY st.maxX st.maxY).1.2 - step),
      maxX := min (absMaxX c) ((findBestTranslation c step st.minX st.minY st.maxX st.maxY).1.1 + step),
      maxY := min (absMaxY c) ((findBestTranslation c step st.minX st.minY st.maxX st.maxY).1.2 + step) }
  else st

/-- Fuel-indexed embedding of the step-halving loop
`for (step = initialStep; step > 0; step /= 2)` of main.cpp line 87.
The fuel only bounds the depth: `step.toNat + 1` rounds always suffice
because integer halving of a positive step strictly decreases it, and a
nonpositive step stops the loop whatever the fuel. -/
def recLoopAux : ℕ → Ctx → ℤ → RecState → RecState
  | 0, _, _, st => st
  | fuel + 1, c, step, st =>
    if 0 < step then recLoopAux fuel c (step / 2) (recStep c step st) else st

/-- The step-halving refinement loop of main.cpp lines 87-104. -/
def recLoop (c : Ctx) (step : ℤ) (st : RecState) : RecState :=
  recLoopAux (step.toNat + 1) c step st

/-- Fuel irrelevance for the refinement loop. -/
theorem recLoopAux_fuel (c : Ctx) : ∀ f1 f2 : ℕ, ∀ step : ℤ, ∀ st : RecState,
    step.toNat < f1 → step.toNat < f2 →
    recLoopAux f1 c step st = recLoopAux f2 c step st := by
  intro f1
  induction f1 with
  | zero =>
      intro f2 step st h1 h2
      omega
  | succ f1 ih =>
      intro f2 step st h1 h2
      cases f2 with
      | zero => omega
      | succ f2 =>
          simp only [recLoopAux]
          by_cases hs : 0 < step
          · rw [if_pos hs, if_pos hs]
            exact ih f2 (step / 2) (recStep c step st) (by omega) (by omega)
          · rw [if_neg hs, if_neg hs]

/-- The loop equation of `recLoop`, mirroring the C++ loop. -/
theorem recLoop_unfold (c : Ctx) (step : ℤ) (st : RecState) :
    recLoop c step st
      = if 0 < step then recLoop c (step / 2) (recStep c step st) else st := by
  by_cases hs : 0 < step
  · rw [if_pos hs]
    unfold recLoop
    have h1 : recLoopAux (step.toNat + 1) c step st
        = recLoopAux step.toNat c (step / 2) (recStep c step st) := by
      simp only [recLoopAux]
      rw [if_pos hs]
    rw [h1]
    exact recLoopAux_fuel c step.toNat ((step / 2).toNat + 1) (step / 2)
      (recStep c step st) (by omega) (by omega)
  · rw [if_neg hs]
    unfold recLoop
    simp only [recLoopAux]
    rw [if_neg hs]

/-- Fuel-indexed trace of the loop states at the start of each round. -/
def recTraceAux : ℕ → Ctx → ℤ → RecState → List RecState
  | 0, _, _, _ => []
  | fuel + 1, c, step, st =>
    if 0 < step then st :: recTraceAux fuel c (step / 2) (recStep c step st) else []

/-- The loop states at the start of each executed round of `recLoop`. -/
def recTrace (c : Ctx) (step : ℤ) (st : RecState) : List RecState :=
  recTraceAux (step.toNat + 1) c step st

/-- Fuel irrelevance for the trace. -/
theorem recTraceAux_fuel (c : Ctx) : ∀ f1 f2 : ℕ, ∀ step : ℤ, ∀ st : RecState,
    step.toNat < f1 → step.toNat < f2 →
    recTraceAux f1 c step st = recTraceAux f2 c step st := by
  intro f1
  induction f1 with
  | zero =>
      intro f2 step st h1 h2
      omega
  | succ f1 ih =>
      intro f2 step st h1 h2
      cases f2 with
      | zero => omega
      | succ f2 =>
          simp only [recTraceAux]
          by_cases hs : 0 < step
          · rw [if_pos hs, if_pos hs]
            exact congrArg _ (ih f2 (step / 2) (recStep c step st) (by omega) (by omega))
          · rw [if_neg hs, if_neg hs]

/-- The trace equation, mirroring the C++ loop. -/
theorem recTrace_unfold (c : Ctx) (step : ℤ) (st : RecState) :
    recTrace c step st
      = if 0 < step then st :: recTrace c (step / 2) (recStep c step st) else [] := by
  by_cases hs : 0 < step
  · rw [if_pos hs]
    unfold recTrace
    have h1 : recTraceAux (step.toNat + 1) c step st
        = st :: recTraceAux step.toNat c (step / 2) (recStep c step st) := by
      simp only [recTraceAux]
      rw [if_pos hs]
    rw [h1]
    exact congrArg _ (recTraceAux_fuel c step.toNat ((step / 2).toNat + 1) (step / 2)
      (recStep c step st) (by omega) (by omega))
  · rw [if_neg hs]
    unfold recTrace
    simp only [recTraceAux]
    rw [if_neg hs]

/-- Initial state of `findBestTranslationRecursive` (main.cpp lines
77-85): best distance `DBL_MAX`, the uninitialized `bestTranslation`
local modelled by the `junkT` parameter, window the full absolute
valid-offset range. -/
def initRecState (c : Ctx) (junkT : ℤ × ℤ) : RecState :=
  { bestDistance := doubleMax, bestTranslation := junkT,
    minX := 0, minY := 0, maxX := absMaxX c, maxY := absMaxY c }

/-- Embedding of `findBestTranslationRecursive` (main.cpp lines 75-110). -/
def findBestTranslationRecursive (c : Ctx) (initialStep : ℤ) (junkT : ℤ × ℤ) : (ℤ × ℤ) × ℚ :=
  ((recLoop c initialStep (initRecState c junkT)).bestTranslation,
   (recLoop c initialStep (initRecState c junkT)).bestDistance)

/-- The point lies in the half-open window of a loop state. -/
def inWinState (p : ℤ × ℤ) (st : RecState) : Prop :=
  st.minX ≤ p.1 ∧ p.1 < st.maxX ∧ st.minY ≤ p.2 ∧ p.2 < st.maxY

instance (p : ℤ × ℤ) (st : RecState) : Decidable (inWinState p st) :=
  inferInstanceAs (Decidable (_ ∧ _ ∧ _ ∧ _))

/-- The window of the next round keeps its low corner at 0 or above and
its high corner at the absolute bounds or below. -/
theorem recStep_window_bounds (c : Ctx) (step : ℤ) (st : RecState)
    (h1 : 0 ≤ st.minX) (h2 : 0 ≤ st.minY) (h3 : st.maxX ≤ absMaxX c) (h4 : st.maxY ≤ absMaxY c) :
    0 ≤ (recStep c step st).minX ∧ 0 ≤ (recStep c step st).minY ∧
      (recStep c step st).maxX ≤ absMaxX c ∧ (recStep c step st).maxY ≤ absMaxY c := by
  unfold recStep
  by_cases hc : (findBestTranslation c step st.minX st.minY st.maxX st.maxY).2 < st.bestDistance
  · rw [if_pos hc]
    exact ⟨le_max_left _ _, le_max_left _ _, min_le_left _ _, min_le_left _ _⟩
  · rw [if_neg hc]
    exact ⟨h1, h2, h3, h4⟩

/-- Window bounds hold at every state of the refinement trace. -/
theorem recTrace_window_bounds (c : Ctx) : ∀ n : ℕ, ∀ step : ℤ, ∀ st : RecState,
    step.toNat ≤ n →
    0 ≤ st.minX → 0 ≤ st.minY → st.maxX ≤ absMaxX c → st.maxY ≤ absMaxY c →
    ∀ st2 ∈ recTrace c step st,
      0 ≤ st2.minX ∧ 0 ≤ st2.minY ∧ st2.maxX ≤ absMaxX c ∧ st2.maxY ≤ absMaxY c := by
  intro n
  induction n with
  | zero =>
      intro step st hn h1 h2 h3 h4 st2 hst2
      rw [recTrace_unfold, if_neg (by omega)] at hst2
      cases hst2
  | succ n ih =>
      intro step st hn h1 h2 h3 h4 st2 hst2
      rw [recTrace_unfold] at hst2
      by_cases hs : 0 < step
      · rw [if_pos hs] at hst2
        rcases List.mem_cons.mp hst2 with rfl | hst3
        · exact ⟨h1, h2, h3, h4⟩
        · have hnext := recStep_window_bounds c step st h1 h2 h3 h4
          exact ih (step / 2) (recStep c step st) (by omega)
            hnext.1 hnext.2.1 hnext.2.2.1 hnext.2.2.2 st2 hst3
      · rw [if_neg hs] at hst2
        cases hst2

/-- C7: throughout every run of `findBestTranslationRecursive`, the
current search window stays a subset of the absolute valid-offset range:
every offset inside the window of any state of the trace lies inside
the half-open absolute range on both axes. The trace starts at the full
range (by definition of the initial state) and each recentering clamps
the low corner at 0 and the high corner at the absolute bounds, a
no-improvement round leaving the state unchanged (see `recStep`). -/
theorem C7_window_subset_invariant (c : Ctx) (initialStep : ℤ) (junkT : ℤ × ℤ)
    (st2 : RecState) (hst2 : st2 ∈ recTrace c initialStep (initRecState c junkT))
    (p : ℤ × ℤ) (hp : inWinState p st2) :
    0 ≤ p.1 ∧ p.1 < absMaxX c ∧ 0 ≤ p.2 ∧ p.2 < absMaxY c := by
  have hb := recTrace_window_bounds c initialStep.toNat initialStep (initRecState c junkT)
    (le_refl _) (le_refl _) (le_refl _) (le_refl _) (le_refl _) st2 hst2
  obtain ⟨hp1, hp2, hp3, hp4⟩ := hp
  obtain ⟨hb1, hb2, hb3, hb4⟩ := hb
  exact ⟨by omega, by omega, by omega, by omega⟩

/-- Witness for C7 at a concrete input: the initial state of a run on
the tiny context, with the origin inside its window. -/
theorem C7_window_subset_witness :
    (initRecState tinyCtx ((5, 7) : ℤ × ℤ) ∈ recTrace tinyCtx 1 (initRecState tinyCtx (5, 7)) ∧
      inWinState ((0, 0) : ℤ × ℤ) (initRecState tinyCtx (5, 7))) ∧
    ((0:ℤ) ≤ ((0, 0) : ℤ × ℤ).1 ∧ ((0, 0) : ℤ × ℤ).1 < absMaxX tinyCtx ∧
      (0:ℤ) ≤ ((0, 0) : ℤ × ℤ).2 ∧ ((0, 0) : ℤ × ℤ).2 < absMaxY tinyCtx) :=
  ⟨⟨by decide, by decide⟩,
    C7_window_subset_invariant tinyCtx 1 (5, 7) (initRecState tinyCtx (5, 7))
      (by decide) (0, 0) (by decide)⟩

/-- The absolute valid-offset grid: all integer offsets of the half-open
absolute range, in row-major order (the step-1 scan of the full range). -/
def absGrid (c : Ctx) : List (ℤ × ℤ) :=
  rowMajorOffsets 0 0 (absMaxX c) (absMaxY c) 1

/-- Absolute-range bounds put an offset on the absolute grid. -/
theorem mem_absGrid {c : Ctx} {p : ℤ × ℤ}
    (h1 : 0 ≤ p.1) (h2 : p.1 < absMaxX c) (h3 : 0 ≤ p.2) (h4 : p.2 < absMaxY c) :
    p ∈ absGrid c :=
  mem_rowMajorOffsets.mpr ⟨mem_offsets_one h1 h2, mem_offsets_one h3 h4⟩

/-- Offsets of the absolute grid satisfy the absolute-range bounds. -/
theorem mem_absGrid_bounds {c : Ctx} {p : ℤ × ℤ} (hp : p ∈ absGrid c) :
    0 ≤ p.1 ∧ p.1 < absMaxX c ∧ 0 ≤ p.2 ∧ p.2 < absMaxY c := by
  have hb := mem_rowMajorOffsets.mp hp
  have hx := mem_offsets hb.1
  have hy := mem_offsets hb.2
  exact ⟨hx.1, hx.2, hy.1, hy.2⟩

/-- The effective x bound never exceeds the absolute bound when the raw
bound does not. -/
theorem effectiveMaxX_le {c : Ctx} {maxX : ℤ} (h : maxX ≤ absMaxX c) :
    effectiveMaxX c maxX ≤ absMaxX c := by
  unfold effectiveMaxX
  split
  · exact h
  · exact le_refl _

/-- The effective y bound never exceeds the absolute bound when the raw
bound does not. -/
theorem effectiveMaxY_le {c : Ctx} {maxY : ℤ} (h : maxY ≤ absMaxY c) :
    effectiveMaxY c maxY ≤ absMaxY c := by
  unfold effectiveMaxY
  split
  · exact h
  · exact le_refl _

/-- A positive raw bound is its own effective bound. -/
theorem effectiveMaxX_pos {c : Ctx} {maxX : ℤ} (h : 0 < maxX) :
    effectiveMaxX c maxX = maxX := by
  unfold effectiveMaxX
  rw [if_pos (by omega)]

/-- A positive raw bound is its own effective bound. -/
theorem effectiveMaxY_pos {c : Ctx} {maxY : ℤ} (h : 0 < maxY) :
    effectiveMaxY c maxY = maxY := by
  unfold effectiveMaxY
  rw [if_pos (by omega)]

/-- Every offset scanned in a round whose window satisfies the bounds
invariant lies on the absolute grid. -/
theorem round_grid_subset (c : Ctx) (step : ℤ) (st : RecState)
    (h1 : 0 ≤ st.minX) (h2 : 0 ≤ st.minY) (h3 : st.maxX ≤ absMaxX c) (h4 : st.maxY ≤ absMaxY c)
    {q : ℤ × ℤ}
    (hq : q ∈ rowMajorOffsets st.minX st.minY
      (effectiveMaxX c st.maxX) (effectiveMaxY c st.maxY) step) :
    q ∈ absGrid c := by
  have hb := mem_rowMajorOffsets.mp hq
  have hx := mem_offsets hb.1
  have hy := mem_offsets hb.2
  have hex := effectiveMaxX_le h3
  have hey := effectiveMaxY_le h4
  exact mem_absGrid (by omega) (by omega) (by omega) (by omega)

/-- If the running best is already at or below a lower bound of every
objective of the absolute grid, no later round of the refinement loop
changes the state. -/
theorem recLoop_stall (c : Ctx) (B : ℚ)
    (hlow : ∀ q ∈ absGrid c, B ≤ symObjective c q.1 q.2) (hB : B ≤ doubleMax) :
    ∀ n : ℕ, ∀ step : ℤ, ∀ st : RecState, step.toNat ≤ n →
    0 ≤ st.minX → 0 ≤ st.minY → st.maxX ≤ absMaxX c → st.maxY ≤ absMaxY c →
    st.bestDistance ≤ B →
    recLoop c step st = st := by
  intro n
  induction n with
  | zero =>
      intro step st hn h1 h2 h3 h4 hle
      rw [recLoop_unfold, if_neg (by omega)]
  | succ n ih =>
      intro step st hn h1 h2 h3 h4 hle
      rw [recLoop_unfold]
      by_cases hs : 0 < step
      · rw [if_pos hs]
        have hge : B ≤ (findBestTranslation c step st.minX st.minY st.maxX st.maxY).2 :=
          findBestTranslation_snd_ge c step st.minX st.minY st.maxX st.maxY B hB
            (fun q hq => hlow q (round_grid_subset c step st h1 h2 h3 h4 hq))
        have hkeep : recStep c step st = st := by
          unfold recStep
          rw [if_neg (not_lt.mpr (le_trans hle hge))]
        rw [hkeep]
        exact ih (step / 2) st (by omega) h1 h2 h3 h4 hle
      · rw [if_neg hs]

/-- The running best distance never increases along the loop. -/
theorem recLoop_best_le (c : Ctx) : ∀ n : ℕ, ∀ step : ℤ, ∀ st : RecState, step.toNat ≤ n →
    (recLoop c step st).bestDistance ≤ st.bestDistance := by
  intro n
  induction n with
  | zero =>
      intro step st hn
      rw [recLoop_unfold, if_neg (by omega)]
  | succ n ih =>
      intro step st hn
      rw [recLoop_unfold]
      by_cases hs : 0 < step
      · rw [if_pos hs]
        refine le_trans (ih (step / 2) (recStep c step st) (by omega)) ?_
        unfold recStep
        by_cases hc : (findBestTranslation c step st.minX st.minY st.maxX st.maxY).2
            < st.bestDistance
        · rw [if_pos hc]
          exact le_of_lt hc
        · rw [if_neg hc]
      · rw [if_neg hs]

/-- On strict improvement the round records the scan result. -/
theorem recStep_improve (c : Ctx) (step : ℤ) (st : RecState)
    (himp : (findBestTranslation c step st.minX st.minY st.maxX st.maxY).2 < st.bestDistance) :
    (recStep c step st).bestDistance
        = (findBestTranslation c step st.minX st.minY st.maxX st.maxY).2 ∧
    (recStep c step st).bestTranslation
        = (findBestTranslation c step st.minX st.minY st.maxX st.maxY).1 := by
  unfold recStep
  rw [if_pos himp]
  exact ⟨rfl, rfl⟩

/-- Without strict improvement the round leaves the state unchanged. -/
theorem recStep_noimprove (c : Ctx) (step : ℤ) (st : RecState)
    (h : ¬ (findBestTranslation c step st.minX st.minY st.maxX st.maxY).2 < st.bestDistance) :
    recStep c step st = st := by
  unfold recStep
  rw [if_neg h]

/-- Core convergence lemma for the hierarchical search: when the unique
minimizer of the symmetric objective over the absolute grid lies inside
the window of every remaining round and the running best is still above
the minimal value, the refinement loop ends exactly at the minimizer
with the minimal value. The last executed round has step 1, whose grid
is the whole remaining window, which contains the minimizer; rounds
whose scan stays above the minimum can only shrink the window around
points the hypothesis still keeps valid. -/
theorem recLoop_exact (c : Ctx) (pstar : ℤ × ℤ)
    (hmem : pstar ∈ absGrid c)
    (huniq : ∀ q ∈ absGrid c, q ≠ pstar →
      symObjective c pstar.1 pstar.2 < symObjective c q.1 q.2)
    (hmax : symObjective c pstar.1 pstar.2 < doubleMax)
    (hbx : absMaxX c ≤ 2 ^ 31) (hby : absMaxY c ≤ 2 ^ 31) :
    ∀ n : ℕ, ∀ step : ℤ, ∀ st : RecState, step.toNat ≤ n → 1 ≤ step →
    0 ≤ st.minX → 0 ≤ st.minY → st.maxX ≤ absMaxX c → st.maxY ≤ absMaxY c →
    st.bestDistance ≤ doubleMax →
    symObjective c pstar.1 pstar.2 < st.bestDistance →
    (∀ st2 ∈ recTrace c step st, inWinState pstar st2) →
    (recLoop c step st).bestTranslation = pstar ∧
      (recLoop c step st).bestDistance = symObjective c pstar.1 pstar.2 := by
  have hpb := mem_absGrid_bounds hmem
  have hlow : ∀ q ∈ absGrid c,
      symObjective c pstar.1 pstar.2 ≤ symObjective c q.1 q.2 := by
    intro q hq
    by_cases hqe : q = pstar
    · rw [hqe]
    · exact le_of_lt (huniq q hq hqe)
  intro n
  induction n with
  | zero =>
      intro step st hn hstep
      omega
  | succ n ih =>
      intro step st hn hstep h1 h2 h3 h4 hbmax hmlt hwin
      have hs : 0 < step := by omega
      have hw0 : inWinState pstar st := hwin st (by
        rw [recTrace_unfold, if_pos hs]
        exact List.mem_cons_self _ _)
      obtain ⟨hw1, hw2, hw3, hw4⟩ := hw0
      have heffX : effectiveMaxX c st.maxX = st.maxX := effectiveMaxX_pos (by omega)
      have heffY : effectiveMaxY c st.maxY = st.maxY := effectiveMaxY_pos (by omega)
      have hwin2 : ∀ st2 ∈ recTrace c (step / 2) (recStep c step st), inWinState pstar st2 := by
        intro st2 h2m
        exact hwin st2 (by
          rw [recTrace_unfold, if_pos hs]
          exact List.mem_cons_of_mem _ h2m)
      have hge : symObjective c pstar.1 pstar.2
          ≤ (findBestTranslation c step st.minX st.minY st.maxX st.maxY).2 :=
        findBestTranslation_snd_ge c step st.minX st.minY st.maxX st.maxY _
          (le_of_lt hmax)
          (fun q hq => hlow q (round_grid_subset c step st h1 h2 h3 h4 hq))
      rw [recLoop_unfold, if_pos hs]
      rcases lt_or_eq_of_le hge with hgt | heq
      · have hstep2 : 2 ≤ step := by
          by_contra hc2
          have hs1 : step = 1 := by omega
          have hpmem : pstar ∈ rowMajorOffsets st.minX st.minY
              (effectiveMaxX c st.maxX) (effectiveMaxY c st.maxY) step := by
            rw [hs1, heffX, heffY]
            exact mem_rowMajorOffsets.mpr ⟨mem_offsets_one hw1 hw2, mem_offsets_one hw3 hw4⟩
          have hd := findBestTranslation_snd_le c step st.minX st.minY st.maxX st.maxY hpmem
          exact absurd hd (not_le.mpr hgt)
        by_cases himp : (findBestTranslation c step st.minX st.minY st.maxX st.maxY).2
            < st.bestDistance
        · have hupd := recStep_improve c step st himp
          have hnext := recStep_window_bounds c step st h1 h2 h3 h4
          refine ih (step / 2) (recStep c step st) (by omega) (by omega)
            hnext.1 hnext.2.1 hnext.2.2.1 hnext.2.2.2 ?_ ?_ hwin2
          · rw [hupd.1]
            exact le_of_lt (lt_of_lt_of_le himp hbmax)
          · rw [hupd.1]
            exact hgt
        · have hst2 : recStep c step st = st := recStep_noimprove c step st himp
          rw [hst2]
          rw [hst2] at hwin2
          exact ih (step / 2) st (by omega) (by omega) h1 h2 h3 h4 hbmax hmlt hwin2
      · have himp : (findBestTranslation c step st.minX st.minY st.maxX st.maxY).2
            < st.bestDistance := by
          rw [← heq]
          exact hmlt
        have hdlt : (findBestTranslation c step st.minX st.minY st.maxX st.maxY).2
            < doubleMax := by
          rw [← heq]
          exact hmax
        obtain ⟨hfst, htmem, htval⟩ := findBestTranslation_fst_eq c step st.minX st.minY
          st.maxX st.maxY h1 h2 (by rw [heffX]; omega) (by rw [heffY]; omega) hdlt
        have hexact := findBestTranslation_exact c step st.minX st.minY st.maxX st.maxY
          h1 h2 (by rw [heffX]; omega) (by rw [heffY]; omega) hdlt
        have habs : (findBestTranslation c step st.minX st.minY st.maxX st.maxY).1
            ∈ absGrid c :=
          round_grid_subset c step st h1 h2 h3 h4 hexact.1
        have htps : (findBestTranslation c step st.minX st.minY st.maxX st.maxY).1 = pstar := by
          by_contra hne
          have hcon := huniq _ habs hne
          rw [hexact.2, ← heq] at hcon
          exact lt_irrefl _ hcon
        have hupd := recStep_improve c step st himp
        have hnext := recStep_window_bounds c step st h1 h2 h3 h4
        have hstall := recLoop_stall c (symObjective c pstar.1 pstar.2)
          hlow (le_of_lt hmax) (step / 2).toNat (step / 2) (recStep c step st) (le_refl _)
          hnext.1 hnext.2.1 hnext.2.2.1 hnext.2.2.2 (by rw [hupd.1, ← heq])
        rw [hstall, hupd.2, hupd.1, htps, ← heq]
        exact ⟨rfl, rfl⟩

/-- C6 (amended): if the symmetric objective has a unique minimizing
offset inside the absolute valid-offset range, the initial step is at
least `max(1, 2 * max(x*, y*))`, and additionally the minimizer lies
inside the search window at the start of every round of the refinement
loop, then `findBestTranslationRecursive` returns exactly that offset
together with the minimal objective value. -/
theorem C6_hierarchical_exact_in_windows (c : Ctx) (initialStep : ℤ) (junkT pstar : ℤ × ℤ)
    (hstep1 : 1 ≤ initialStep)
    (hstep2 : 2 * max pstar.1 pstar.2 ≤ initialStep)
    (hmem : pstar ∈ absGrid c)
    (huniq : ∀ q ∈ absGrid c, q ≠ pstar →
      symObjective c pstar.1 pstar.2 < symObjective c q.1 q.2)
    (hmax : ∀ q ∈ absGrid c, symObjective c q.1 q.2 < doubleMax)
    (hbx : absMaxX c ≤ 2 ^ 31) (hby : absMaxY c ≤ 2 ^ 31)
    (hwin : ∀ st2 ∈ recTrace c initialStep (initRecState c junkT), inWinState pstar st2) :
    findBestTranslationRecursive c initialStep junkT
      = (pstar, symObjective c pstar.1 pstar.2) := by
  have h := recLoop_exact c pstar hmem huniq (hmax pstar hmem) hbx hby
    initialStep.toNat initialStep (initRecState c junkT) (le_refl _) hstep1
    (le_refl _) (le_refl _) (le_refl _) (le_refl _) (le_refl _) (hmax pstar hmem) hwin
  unfold findBestTranslationRecursive
  rw [h.1, h.2]

/-- Witness for the amended C6 at a concrete input: on the tiny context
the unique minimizer is the origin and a run with initial step 1 keeps
it inside every window. -/
theorem C6_hierarchical_witness :
    ((1:ℤ) ≤ 1 ∧ 2 * max ((0, 0) : ℤ × ℤ).1 ((0, 0) : ℤ × ℤ).2 ≤ 1 ∧
      ((0, 0) : ℤ × ℤ) ∈ absGrid tinyCtx ∧
      (∀ q ∈ absGrid tinyCtx, q ≠ ((0, 0) : ℤ × ℤ) →
        symObjective tinyCtx 0 0 < symObjective tinyCtx q.1 q.2) ∧
      (∀ q ∈ absGrid tinyCtx, symObjective tinyCtx q.1 q.2 < doubleMax) ∧
      absMaxX tinyCtx ≤ 2 ^ 31 ∧ absMaxY tinyCtx ≤ 2 ^ 31 ∧
      (∀ st2 ∈ recTrace tinyCtx 1 (initRecState tinyCtx ((9, 9) : ℤ × ℤ)),
        inWinState (0, 0) st2)) ∧
    findBestTranslationRecursive tinyCtx 1 (9, 9)
      = (((0, 0) : ℤ × ℤ), symObjective tinyCtx 0 0) :=
  ⟨⟨by decide, by decide, by decide, by decide, by decide, by decide, by decide, by decide⟩,
    C6_hierarchical_exact_in_windows tinyCtx 1 (9, 9) (0, 0) (by decide) (by decide)
      (by decide) (by decide) (by decide) (by decide) (by decide) (by decide)⟩

/-- C6 counterexample needle: width 3, height 1, on-edge pixels at
x = 0 and x = 2. -/
def cexNeedle : GrayImage :=
  { width := 3, height := 1, data := fun x y => if (x = 0 ∨ x = 2) ∧ y = 0 then 0 else 255 }

/-- Distance field of `cexNeedle` (L1 distance to the nearest of the two
edge pixels, on the coordinates the search reads). -/
def cexNeedleDT : FloatImage :=
  { width := 3, height := 1, data := fun x _ => if x = 0 ∨ x = 2 then 0 else 1 }

/-- C6 counterexample haystack edges: width 16, height 2, with a true
match for the needle at x = 2 (edges at (2,0) and (4,0)) and an isolated
spurious edge at (9,0). -/
def cexHayEdges : GrayImage :=
  { width := 16, height := 2,
    data := fun x y => if (x = 2 ∨ x = 4 ∨ x = 9) ∧ y = 0 then 0 else 255 }

/-- Distance field of `cexHayEdges`: exact L1 distance to the nearest
edge pixel. -/
def cexHayDT : FloatImage :=
  { width := 16, height := 2,
    data := fun x y =>
      ((min (min (x - 2).natAbs (x - 4).natAbs) (x - 9).natAbs + y.natAbs : ℕ) : ℚ) }

/-- Context of the C6 counterexample. -/
def cexCtx : Ctx :=
  { needleEdges := cexNeedle, needleDT := cexNeedleDT,
    haystackEdges := cexHayEdges, haystackDT := cexHayDT }

/-- C6 counterexample: on `cexCtx` the symmetric objective has the
unique minimizer (2, 0) over the absolute valid-offset range (its value
there is `doubleMin`, every other offset gives at least 1), and
`initialStep = 4` satisfies `4 = 2 * max(2, 0)`; yet the hierarchical
search locks onto the shallow basin its coarse first round finds at
(8, 0) — the recentered window [4, 12) excludes the true optimum — and
returns ((8, 0), 1), not the optimum. The claim as stated is therefore
false on the code. -/
theorem C6_counterexample :
    (((2, 0) : ℤ × ℤ) ∈ absGrid cexCtx ∧
      (∀ q ∈ absGrid cexCtx, q ≠ ((2, 0) : ℤ × ℤ) →
        symObjective cexCtx 2 0 < symObjective cexCtx q.1 q.2) ∧
      2 * max (2 : ℤ) 0 ≤ 4) ∧
    findBestTranslationRecursive cexCtx 4 (0, 0) = (((8, 0) : ℤ × ℤ), 1) ∧
    findBestTranslationRecursive cexCtx 4 (0, 0)
      ≠ (((2, 0) : ℤ × ℤ), symObjective cexCtx 2 0) := by
  exact ⟨⟨by decide, by decide, by decide⟩, by decide, by decide⟩

/-- Fuel irrelevance for the exclusive loop. -/
theorem offsetsAux_fuel (step : ℤ) : ∀ f1 f2 : ℕ, ∀ lo hi : ℤ,
    (hi - lo).toNat ≤ f1 → (hi - lo).toNat ≤ f2 →
    offsetsAux f1 lo hi step = offsetsAux f2 lo hi step := by
  intro f1
  induction f1 with
  | zero =>
      intro f2 lo hi h1 h2
      cases f2 with
      | zero => rfl
      | succ f2 =>
          simp only [offsetsAux]
          rw [if_neg]
          rintro ⟨hg1, hg2⟩
          omega
  | succ f1 ih =>
      intro f2 lo hi h1 h2
      cases f2 with
      | zero =>
          simp only [offsetsAux]
          rw [if_neg]
          rintro ⟨hg1, hg2⟩
          omega
      | succ f2 =>
          simp only [offsetsAux]
          by_cases hg : lo < hi ∧ 0 < step
          · rw [if_pos hg, if_pos hg]
            congr 1
            have := hg.2
            exact ih f2 (lo + step) hi (by omega) (by omega)
          · rw [if_neg hg, if_neg hg]

/-- The exclusive loop satisfies its own loop equation (so the fuel of
`offsets` is adequate and the list is exactly what the C++ loop visits). -/
theorem offsets_unfold (lo hi step : ℤ) :
    offsets lo hi step
      = if lo < hi ∧ 0 < step then lo :: offsets (lo + step) hi step else [] := by
  by_cases hg : lo < hi ∧ 0 < step
  · rw [if_pos hg]
    unfold offsets
    obtain ⟨k, hk⟩ : ∃ k, (hi - lo).toNat = k + 1 := ⟨(hi - lo).toNat - 1, by omega⟩
    rw [hk]
    simp only [offsetsAux]
    rw [if_pos hg]
    congr 1
    exact offsetsAux_fuel step k (hi - (lo + step)).toNat (lo + step) hi (by omega) (le_refl _)
  · rw [if_neg hg]
    unfold offsets
    rcases hc : (hi - lo).toNat with _ | k
    · rfl
    · simp only [offsetsAux]
      rw [if_neg hg]

/-- Fuel-indexed embedding of the inclusive loop
`for (v = lo; v <= hi; v += step)` on integers (the rotation loop of
main.cpp line 136). -/
def intRangeAux : ℕ → ℤ → ℤ → ℤ → List ℤ
  | 0, _, _, _ => []
  | fuel + 1, lo, hi, step =>
    if lo ≤ hi ∧ 0 < step then lo :: intRangeAux fuel (lo + step) hi step else []

/-- Values visited by the inclusive integer loop with positive step. -/
def intRangeIncl (lo hi step : ℤ) : List ℤ :=
  intRangeAux (hi + 1 - lo).toNat lo hi step

/-- Fuel irrelevance for the inclusive integer loop. -/
theorem intRangeAux_fuel (step : ℤ) : ∀ f1 f2 : ℕ, ∀ lo hi : ℤ,
    (hi + 1 - lo).toNat ≤ f1 → (hi + 1 - lo).toNat ≤ f2 →
    intRangeAux f1 lo hi step = intRangeAux f2 lo hi step := by
  intro f1
  induction f1 with
  | zero =>
      intro f2 lo hi h1 h2
      cases f2 with
      | zero => rfl
      | succ f2 =>
          simp only [intRangeAux]
          rw [if_neg]
          rintro ⟨hg1, hg2⟩
          omega
  | succ f1 ih =>
      intro f2 lo hi h1 h2
      cases f2 with
      | zero =>
          simp only [intRangeAux]
          rw [if_neg]
          rintro ⟨hg1, hg2⟩
          omega
      | succ f2 =>
          simp only [intRangeAux]
          by_cases hg : lo ≤ hi ∧ 0 < step
          · rw [if_pos hg, if_pos hg]
            congr 1
            have := hg.2
            exact ih f2 (lo + step) hi (by omega) (by omega)
          · rw [if_neg hg, if_neg hg]

/-- The inclusive integer loop satisfies its own loop equation. -/
theorem intRangeIncl_unfold (lo hi step : ℤ) :
    intRangeIncl lo hi step
      = if lo ≤ hi ∧ 0 < step then lo :: intRangeIncl (lo + step) hi step else [] := by
  by_cases hg : lo ≤ hi ∧ 0 < step
  · rw [if_pos hg]
    unfold intRangeIncl
    have hg2 := hg.2
    obtain ⟨k, hk⟩ : ∃ k, (hi + 1 - lo).toNat = k + 1 := ⟨(hi + 1 - lo).toNat - 1, by omega⟩
    rw [hk]
    simp only [intRangeAux]
    rw [if_pos hg]
    congr 1
    exact intRangeAux_fuel step k (hi + 1 - (lo + step)).toNat (lo + step) hi
      (by omega) (le_refl _)
  · rw [if_neg hg]
    unfold intRangeIncl
    rcases hc : (hi + 1 - lo).toNat with _ | k
    · rfl
    · simp only [intRangeAux]
      rw [if_neg hg]

/-- A non-empty inclusive integer loop visits its start value first. -/
theorem intRangeIncl_head {lo hi step : ℤ} (h1 : lo ≤ hi) (h2 : 0 < step) :
    ∃ t, intRangeIncl lo hi step = lo :: t := by
  rw [intRangeIncl_unfold, if_pos ⟨h1, h2⟩]
  exact ⟨_, rfl⟩

/-- Fuel-indexed embedding of the inclusive loop
`for (v = lo; v <= hi; v += step)` on rationals (the scale loop of
main.cpp line 139; the doubles the C++ accumulates are exact for the
binary-representable reference values, so exact rationals model them).
When the guard holds, the loop runs exactly
`(floor ((hi - lo) / step)) + 1` times, which is the fuel used below. -/
def ratRangeAux : ℕ → ℚ → ℚ → ℚ → List ℚ
  | 0, _, _, _ => []
  | fuel + 1, lo, hi, step =>
    if lo ≤ hi ∧ 0 < step then lo :: ratRangeAux fuel (lo + step) hi step else []

/-- Values visited by the inclusive rational loop with positive step. -/
def ratRangeIncl (lo hi step : ℚ) : List ℚ :=
  ratRangeAux (⌊(hi - lo) / step⌋ + 1).toNat lo hi step

/-- One loop advance decrements the iteration count. -/
theorem ratRange_floor_succ {lo hi step : ℚ} (hg2 : 0 < step) :
    ⌊(hi - (lo + step)) / step⌋ = ⌊(hi - lo) / step⌋ - 1 := by
  have hstep0 : step ≠ 0 := ne_of_gt hg2
  have hdiv : (hi - (lo + step)) / step = (hi - lo) / step - 1 := by
    field_simp
    ring
  rw [hdiv]
  exact Int.floor_sub_one _

/-- Fuel irrelevance for the inclusive rational loop. -/
theorem ratRangeAux_fuel : ∀ f1 f2 : ℕ, ∀ lo hi step : ℚ,
    (⌊(hi - lo) / step⌋ + 1).toNat ≤ f1 → (⌊(hi - lo) / step⌋ + 1).toNat ≤ f2 →
    ratRangeAux f1 lo hi step = ratRangeAux f2 lo hi step := by
  intro f1
  induction f1 with
  | zero =>
      intro f2 lo hi step h1 h2
      cases f2 with
      | zero => rfl
      | succ f2 =>
          simp only [ratRangeAux]
          rw [if_neg]
          rintro ⟨hg1, hg2⟩
          have hpos : 0 ≤ ⌊(hi - lo) / step⌋ :=
            Int.floor_nonneg.mpr (div_nonneg (by linarith) (le_of_lt hg2))
          omega
  | succ f1 ih =>
      intro f2 lo hi step h1 h2
      cases f2 with
      | zero =>
          simp only [ratRangeAux]
          rw [if_neg]
          rintro ⟨hg1, hg2⟩
          have hpos : 0 ≤ ⌊(hi - lo) / step⌋ :=
            Int.floor_nonneg.mpr (div_nonneg (by linarith) (le_of_lt hg2))
          omega
      | succ f2 =>
          simp only [ratRangeAux]
          by_cases hg : lo ≤ hi ∧ 0 < step
          · rw [if_pos hg, if_pos hg]
            congr 1
            have hfl := @ratRange_floor_succ lo hi step hg.2
            apply ih
            · rw [hfl]
              omega
            · rw [hfl]
              omega
          · rw [if_neg hg, if_neg hg]

/-- The inclusive rational loop satisfies its own loop equation. -/
theorem ratRangeIncl_unfold (lo hi step : ℚ) :
    ratRangeIncl lo hi step
      = if lo ≤ hi ∧ 0 < step then lo :: ratRangeIncl (lo + step) hi step else [] := by
  by_cases hg : lo ≤ hi ∧ 0 < step
  · rw [if_pos hg]
    unfold ratRangeIncl
    have hpos : 0 ≤ ⌊(hi - lo) / step⌋ :=
      Int.floor_nonneg.mpr (div_nonneg (by linarith [hg.1]) (le_of_lt hg.2))
    obtain ⟨k, hk⟩ : ∃ k, (⌊(hi - lo) / step⌋ + 1).toNat = k + 1 :=
      ⟨(⌊(hi - lo) / step⌋ + 1).toNat - 1, by omega⟩
    rw [hk]
    simp only [ratRangeAux]
    rw [if_pos hg]
    congr 1
    have hfl := @ratRange_floor_succ lo hi step hg.2
    apply ratRangeAux_fuel
    · rw [hfl]
      omega
    · exact le_refl _
  · rw [if_neg hg]
    unfold ratRangeIncl
    rcases hc : (⌊(hi - lo) / step⌋ + 1).toNat with _ | k
    · rfl
    · simp only [ratRangeAux]
      rw [if_neg hg]

/-- A non-empty inclusive rational loop visits its start value first. -/
theorem ratRangeIncl_head {lo hi step : ℚ} (h1 : lo ≤ hi) (h2 : 0 < step) :
    ∃ t, ratRangeIncl lo hi step = lo :: t := by
  rw [ratRangeIncl_unfold, if_pos ⟨h1, h2⟩]
  exact ⟨_, rfl⟩

/-- Per-pose context: the needle edge map is overwritten in place with
the output of the external affine-warp collaborator (cv2DRotationMatrix
plus cvWarpAffine, main.cpp lines 141-142) applied to the backup of the
original needle at the candidate rotation and scale. The collaborator
contract keeps the canvas dimensions, so only the pixel data changes;
`warp` abstracts the produced data as a function of the pose. The
distance fields and the haystack images are untouched (in particular the
needle distance field stays the one main.cpp computed from the original
needle at startup). -/
def poseCtx (base : Ctx) (warp : ℤ → ℚ → ℤ → ℤ → ℤ) (r : ℤ) (s : ℚ) : Ctx :=
  { needleEdges :=
      { width := base.needleEdges.width, height := base.needleEdges.height, data := warp r s },
    needleDT := base.needleDT,
    haystackEdges := base.haystackEdges,
    haystackDT := base.haystackDT }

/-- Distance found by the hierarchical search for one pose (main.cpp
line 145). -/
def poseDist (base : Ctx) (warp : ℤ → ℚ → ℤ → ℤ → ℤ) (stepT : ℤ) (junkT : ℤ × ℤ)
    (p : ℤ × ℚ) : ℚ :=
  (findBestTranslationRecursive (poseCtx base warp p.1 p.2) stepT junkT).2

/-- Translation found by the hierarchical search for one pose (main.cpp
line 145). -/
def poseTrans (base : Ctx) (warp : ℤ → ℚ → ℤ → ℤ → ℤ) (stepT : ℤ) (junkT : ℤ × ℤ)
    (p : ℤ × ℚ) : ℤ × ℤ :=
  (findBestTranslationRecursive (poseCtx base warp p.1 p.2) stepT junkT).1

/-- State of the pose sweep of `findBestTranslationScaleAndRotation`
(main.cpp lines 128-157): the running best distance, the three output
parameters, and the contents of `bestRotMat`, modelled by the
(rotation, scale) pair the matrix was computed from (cv2DRotationMatrix
is a fixed function of that pair). -/
structure PoseState where
  bestDistance : ℚ
  bestTranslationOut : ℤ × ℤ
  bestRotationOut : ℤ
  bestScaleOut : ℚ
  bestRotMat : ℤ × ℚ
  deriving DecidableEq

/-- One pose of the sweep (main.cpp lines 141-157): warp the needle, run
the hierarchical search, and on strict improvement record the distance,
the three outputs and the rotation matrix. -/
def poseStep (base : Ctx) (warp : ℤ → ℚ → ℤ → ℤ → ℤ) (stepT : ℤ) (junkT : ℤ × ℤ)
    (st : PoseState) (p : ℤ × ℚ) : PoseState :=
  if poseDist base warp stepT junkT p < st.bestDistance then
    { bestDistance := poseDist base warp stepT junkT p,
      bestTranslationOut := poseTrans base warp stepT junkT p,
      bestRotationOut := p.1,
      bestScaleOut := p.2,
      bestRotMat := p }
  else st

/-- The sweep order (main.cpp lines 136-139): rotation outer ascending,
scale inner ascending, both bounds inclusive. -/
def poseList (minRotation maxRotation rotationStep : ℤ)
    (minScale maxScale scaleStep : ℚ) : List (ℤ × ℚ) :=
  (intRangeIncl minRotation maxRotation rotationStep).flatMap (fun r =>
    (ratRangeIncl minScale maxScale scaleStep).map (fun s => ((r, s) : ℤ × ℚ)))

/-- Embedding of `findBestTranslationScaleAndRotation` (main.cpp lines
116-163): fold the pose sweep starting from `DBL_MAX` (the junk
parameters model the uninitialized local `bestTranslation` of the
recursive search, the caller-owned output variables, and the
uninitialized `bestRotMat`), then warp the backup of the original
needle at the final best matrix back into the needle edge map (line
161). Returns the final sweep state and the final needle edge map. -/
def findBestTranslationScaleAndRotation (base : Ctx) (warp : ℤ → ℚ → ℤ → ℤ → ℤ)
    (stepT minRotation maxRotation rotationStep : ℤ)
    (minScale maxScale scaleStep : ℚ)
    (junkT junkOutT : ℤ × ℤ) (junkRot : ℤ) (junkScale : ℚ) (junkMat : ℤ × ℚ) :
    PoseState × GrayImage :=
  ((poseList minRotation maxRotation rotationStep minScale maxScale scaleStep).foldl
      (poseStep base warp stepT junkT)
      { bestDistance := doubleMax, bestTranslationOut := junkOutT,
        bestRotationOut := junkRot, bestScaleOut := junkScale, bestRotMat := junkMat },
   { width := base.needleEdges.width, height := base.needleEdges.height,
     data := warp
       ((poseList minRotation maxRotation rotationStep minScale maxScale scaleStep).foldl
          (poseStep base warp stepT junkT)
          { bestDistance := doubleMax, bestTranslationOut := junkOutT,
            bestRotationOut := junkRot, bestScaleOut := junkScale,
            bestRotMat := junkMat }).bestRotMat.1
       ((poseList minRotation maxRotation rotationStep minScale maxScale scaleStep).foldl
          (poseStep base warp stepT junkT)
          { bestDistance := doubleMax, bestTranslationOut := junkOutT,
            bestRotationOut := junkRot, bestScaleOut := junkScale,
            bestRotMat := junkMat }).bestRotMat.2 })

/-- The best pose distance never increases along the sweep. -/
theorem poseFold_le_init (base : Ctx) (warp : ℤ → ℚ → ℤ → ℤ → ℤ) (stepT : ℤ) (junkT : ℤ × ℤ)
    (l : List (ℤ × ℚ)) (st : PoseState) :
    (l.foldl (poseStep base warp stepT junkT) st).bestDistance ≤ st.bestDistance := by
  induction l generalizing st with
  | nil => exact le_refl _
  | cons p t ih =>
      simp only [List.foldl_cons]
      refine le_trans (ih (poseStep base warp stepT junkT st p)) ?_
      unfold poseStep
      split
      · next h => exact le_of_lt h
      · exact le_refl _

/-- The final best pose distance bounds every swept pose distance. -/
theorem poseFold_lb (base : Ctx) (warp : ℤ → ℚ → ℤ → ℤ → ℤ) (stepT : ℤ) (junkT : ℤ × ℤ)
    (l : List (ℤ × ℚ)) (st : PoseState) (p : ℤ × ℚ) (hp : p ∈ l) :
    (l.foldl (poseStep base warp stepT junkT) st).bestDistance
      ≤ poseDist base warp stepT junkT p := by
  induction l generalizing st with
  | nil => cases hp
  | cons q t ih =>
      simp only [List.foldl_cons]
      rcases List.mem_cons.mp hp with rfl | h2
      · refine le_trans (poseFold_le_init base warp stepT junkT t
          (poseStep base warp stepT junkT st p)) ?_
        unfold poseStep
        split
        · exact le_refl _
        · next h => exact not_lt.mp h
      · exact ih (poseStep base warp stepT junkT st q) h2

/-- If no pose strictly beats the accumulator, the sweep keeps it. -/
theorem poseFold_stall (base : Ctx) (warp : ℤ → ℚ → ℤ → ℤ → ℤ) (stepT : ℤ) (junkT : ℤ × ℤ)
    (l : List (ℤ × ℚ)) (st : PoseState)
    (h : ∀ p ∈ l, st.bestDistance ≤ poseDist base warp stepT junkT p) :
    l.foldl (poseStep base warp stepT junkT) st = st := by
  induction l with
  | nil => rfl
  | cons p t ih =>
      have hp : st.bestDistance ≤ poseDist base warp stepT junkT p :=
        h p (List.mem_cons_self _ _)
      have hkeep : poseStep base warp stepT junkT st p = st := by
        unfold poseStep
        rw [if_neg (not_lt.mpr hp)]
      simp only [List.foldl_cons, hkeep]
      exact ih (fun q hq => h q (List.mem_cons_of_mem _ hq))

/-- Strict-improvement pose sweeping returns the first pose attaining
the minimum, with all recorded fields consistent: the sweep decomposes
around the pose stored in `bestRotMat`, every pose before it is strictly
worse, the best distance and translation are those of that pose, and
the reported rotation and scale outputs are its components. -/
theorem poseFold_first (base : Ctx) (warp : ℤ → ℚ → ℤ → ℤ → ℤ) (stepT : ℤ) (junkT : ℤ × ℤ)
    (l : List (ℤ × ℚ)) (st : PoseState)
    (h : ∃ p ∈ l, poseDist base warp stepT junkT p < st.bestDistance) :
    ∃ pre post, l = pre ++ (l.foldl (poseStep base warp stepT junkT) st).bestRotMat :: post ∧
      (l.foldl (poseStep base warp stepT junkT) st).bestDistance
        = poseDist base warp stepT junkT
            (l.foldl (poseStep base warp stepT junkT) st).bestRotMat ∧
      (l.foldl (poseStep base warp stepT junkT) st).bestTranslationOut
        = poseTrans base warp stepT junkT
            (l.foldl (poseStep base warp stepT junkT) st).bestRotMat ∧
      (l.foldl (poseStep base warp stepT junkT) st).bestRotationOut
        = (l.foldl (poseStep base warp stepT junkT) st).bestRotMat.1 ∧
      (l.foldl (poseStep base warp stepT junkT) st).bestScaleOut
        = (l.foldl (poseStep base warp stepT junkT) st).bestRotMat.2 ∧
      ∀ q ∈ pre, (l.foldl (poseStep base warp stepT junkT) st).bestDistance
        < poseDist base warp stepT junkT q := by
  induction l generalizing st with
  | nil =>
      obtain ⟨p, hp, _⟩ := h
      cases hp
  | cons p t ih =>
      simp only [List.foldl_cons]
      by_cases hcase : poseDist base warp stepT junkT p < st.bestDistance
      · have hupd : poseStep base warp stepT junkT st p
            = { bestDistance := poseDist base warp stepT junkT p,
                bestTranslationOut := poseTrans base warp stepT junkT p,
                bestRotationOut := p.1, bestScaleOut := p.2, bestRotMat := p } := by
          unfold poseStep
          rw [if_pos hcase]
        rw [hupd]
        by_cases hbetter : ∃ q ∈ t, poseDist base warp stepT junkT q
            < poseDist base warp stepT junkT p
        · obtain ⟨pre, post, hdec, hd1, hd2, hd3, hd4, hpre⟩ := ih
            { bestDistance := poseDist base warp stepT junkT p,
              bestTranslationOut := poseTrans base warp stepT junkT p,
              bestRotationOut := p.1, bestScaleOut := p.2, bestRotMat := p } hbetter
          refine ⟨p :: pre, post,
            by rw [List.cons_append]; exact congrArg (List.cons p) hdec,
            hd1, hd2, hd3, hd4, ?_⟩
          intro q hq
          rcases List.mem_cons.mp hq with rfl | hq2
          · obtain ⟨q0, hq0, hlt⟩ := hbetter
            exact lt_of_le_of_lt (poseFold_lb base warp stepT junkT t _ q0 hq0) hlt
          · exact hpre q hq2
        · push_neg at hbetter
          have hst : t.foldl (poseStep base warp stepT junkT)
              { bestDistance := poseDist base warp stepT junkT p,
                bestTranslationOut := poseTrans base warp stepT junkT p,
                bestRotationOut := p.1, bestScaleOut := p.2, bestRotMat := p }
              = { bestDistance := poseDist base warp stepT junkT p,
                  bestTranslationOut := poseTrans base warp stepT junkT p,
                  bestRotationOut := p.1, bestScaleOut := p.2, bestRotMat := p } :=
            poseFold_stall base warp stepT junkT t _ hbetter
          rw [hst]
          exact ⟨[], t, rfl, rfl, rfl, rfl, rfl, by intro q hq; cases hq⟩
      · have hkeep : poseStep base warp stepT junkT st p = st := by
          unfold poseStep
          rw [if_neg hcase]
        rw [hkeep]
        have hex : ∃ q ∈ t, poseDist base warp stepT junkT q < st.bestDistance := by
          obtain ⟨q, hq, hlt⟩ := h
          rcases List.mem_cons.mp hq with rfl | hq2
          · exact absurd hlt hcase
          · exact ⟨q, hq2, hlt⟩
        obtain ⟨pre, post, hdec, hd1, hd2, hd3, hd4, hpre⟩ := ih st hex
        refine ⟨p :: pre, post,
          by rw [List.cons_append]; exact congrArg (List.cons p) hdec,
          hd1, hd2, hd3, hd4, ?_⟩
        intro q hq
        rcases List.mem_cons.mp hq with rfl | hq2
        · obtain ⟨qw, hqw, hlt⟩ := hex
          exact lt_of_le_of_lt (poseFold_lb base warp stepT junkT t st qw hqw)
            (lt_of_lt_of_le hlt (not_lt.mp hcase))
        · exact hpre q hq2

/-- A non-empty exclusive loop contains its start value. -/
theorem mem_offsets_start {lo hi step : ℤ} (h1 : lo < hi) (h2 : 0 < step) :
    lo ∈ offsets lo hi step := by
  obtain ⟨t, ht⟩ := offsets_head h1 h2
  rw [ht]
  exact List.mem_cons_self _ _

/-- With a positive step, a non-empty absolute range and the objective at
the origin below `DBL_MAX`, the first round of the hierarchical search
already improves on the initial `DBL_MAX`, so the final best distance is
strictly below `doubleMax`. -/
theorem findBestTranslationRecursive_lt (c : Ctx) (stepT : ℤ) (junkT : ℤ × ℤ)
    (hstep : 1 ≤ stepT) (hax : 1 ≤ absMaxX c) (hay : 1 ≤ absMaxY c)
    (hb0 : symObjective c 0 0 < doubleMax) :
    (findBestTranslationRecursive c stepT junkT).2 < doubleMax := by
  have hkey : (recLoop c stepT (initRecState c junkT)).bestDistance < doubleMax := by
    rw [recLoop_unfold, if_pos (show (0:ℤ) < stepT by omega)]
    have heffX : effectiveMaxX c (initRecState c junkT).maxX = absMaxX c := by
      have h := @effectiveMaxX_pos c (absMaxX c) (by omega)
      exact h
    have heffY : effectiveMaxY c (initRecState c junkT).maxY = absMaxY c := by
      have h := @effectiveMaxY_pos c (absMaxY c) (by omega)
      exact h
    have hmem : ((0, 0) : ℤ × ℤ) ∈ rowMajorOffsets 0 0 (absMaxX c) (absMaxY c) stepT :=
      mem_rowMajorOffsets.mpr
        ⟨mem_offsets_start (by omega) (by omega), mem_offsets_start (by omega) (by omega)⟩
    have hd : (findBestTranslation c stepT (initRecState c junkT).minX
        (initRecState c junkT).minY (initRecState c junkT).maxX
        (initRecState c junkT).maxY).2 ≤ symObjective c 0 0 :=
      findBestTranslation_snd_le c stepT (initRecState c junkT).minX
        (initRecState c junkT).minY (initRecState c junkT).maxX
        (initRecState c junkT).maxY (q := ((0, 0) : ℤ × ℤ))
        (by rw [heffX, heffY]; exact hmem)
    have himp : (findBestTranslation c stepT (initRecState c junkT).minX
        (initRecState c junkT).minY (initRecState c junkT).maxX
        (initRecState c junkT).maxY).2 < (initRecState c junkT).bestDistance := by
      show _ < doubleMax
      exact lt_of_le_of_lt hd hb0
    have hupd := recStep_improve c stepT (initRecState c junkT) himp
    calc (recLoop c (stepT / 2) (recStep c stepT (initRecState c junkT))).bestDistance
        ≤ (recStep c stepT (initRecState c junkT)).bestDistance :=
          recLoop_best_le c (stepT / 2).toNat (stepT / 2) _ (le_refl _)
      _ = (findBestTranslation c stepT (initRecState c junkT).minX
            (initRecState c junkT).minY (initRecState c junkT).maxX
            (initRecState c junkT).maxY).2 := hupd.1
      _ ≤ symObjective c 0 0 := hd
      _ < doubleMax := hb0
  exact hkey

/-- C8: with a non-empty rotation/scale sweep, a positive translation
step, a non-empty absolute offset range, and the first pose achieving a
distance below `DBL_MAX` (always the case for real distance fields),
`findBestTranslationScaleAndRotation` ends with the needle edge map
holding the transformed needle of the pose that achieved the minimal
distance across all poses, the first such pose in sweep order; the
reported rotation and scale outputs name exactly that pose, and the
final needle image is the warp of the original needle at it. -/
theorem C8_needle_ends_at_best_pose (base : Ctx) (warp : ℤ → ℚ → ℤ → ℤ → ℤ)
    (stepT minRotation maxRotation rotationStep : ℤ)
    (minScale maxScale scaleStep : ℚ)
    (junkT junkOutT : ℤ × ℤ) (junkRot : ℤ) (junkScale : ℚ) (junkMat : ℤ × ℚ)
    (hrot : minRotation ≤ maxRotation) (hrs : 0 < rotationStep)
    (hsc : minScale ≤ maxScale) (hss : 0 < scaleStep)
    (hstep : 1 ≤ stepT) (hax : 1 ≤ absMaxX base) (hay : 1 ≤ absMaxY base)
    (hb : symObjective (poseCtx base warp minRotation minScale) 0 0 < doubleMax) :
    ∃ pre post,
      poseList minRotation maxRotation rotationStep minScale maxScale scaleStep
        = pre ++ (findBestTranslationScaleAndRotation base warp stepT minRotation maxRotation
            rotationStep minScale maxScale scaleStep junkT junkOutT junkRot junkScale
            junkMat).1.bestRotMat :: post ∧
      (findBestTranslationScaleAndRotation base warp stepT minRotation maxRotation
          rotationStep minScale maxScale scaleStep junkT junkOutT junkRot junkScale
          junkMat).1.bestDistance
        = poseDist base warp stepT junkT
            (findBestTranslationScaleAndRotation base warp stepT minRotation maxRotation
              rotationStep minScale maxScale scaleStep junkT junkOutT junkRot junkScale
              junkMat).1.bestRotMat ∧
      (findBestTranslationScaleAndRotation base warp stepT minRotation maxRotation
          rotationStep minScale maxScale scaleStep junkT junkOutT junkRot junkScale
          junkMat).1.bestTranslationOut
        = poseTrans base warp stepT junkT
            (findBestTranslationScaleAndRotation base warp stepT minRotation maxRotation
              rotationStep minScale maxScale scaleStep junkT junkOutT junkRot junkScale
              junkMat).1.bestRotMat ∧
      (findBestTranslationScaleAndRotation base warp stepT minRotation maxRotation
          rotationStep minScale maxScale scaleStep junkT junkOutT junkRot junkScale
          junkMat).1.bestRotationOut
        = (findBestTranslationScaleAndRotation base warp stepT minRotation maxRotation
            rotationStep minScale maxScale scaleStep junkT junkOutT junkRot junkScale
            junkMat).1.bestRotMat.1 ∧
      (findBestTranslationScaleAndRotation base warp stepT minRotation maxRotation
          rotationStep minScale maxScale scaleStep junkT junkOutT junkRot junkScale
          junkMat).1.bestScaleOut
        = (findBestTranslationScaleAndRotation base warp stepT minRotation maxRotation
            rotationStep minScale maxScale scaleStep junkT junkOutT junkRot junkScale
            junkMat).1.bestRotMat.2 ∧
      (∀ q ∈ pre,
        (findBestTranslationScaleAndRotation base warp stepT minRotation maxRotation
            rotationStep minScale maxScale scaleStep junkT junkOutT junkRot junkScale
            junkMat).1.bestDistance
          < poseDist base warp stepT junkT q) ∧
      (∀ q ∈ poseList minRotation maxRotation rotationStep minScale maxScale scaleStep,
        (findBestTranslationScaleAndRotation base warp stepT minRotation maxRotation
            rotationStep minScale maxScale scaleStep junkT junkOutT junkRot junkScale
            junkMat).1.bestDistance
          ≤ poseDist base warp stepT junkT q) ∧
      (findBestTranslationScaleAndRotation base warp stepT minRotation maxRotation
          rotationStep minScale maxScale scaleStep junkT junkOutT junkRot junkScale
          junkMat).2
        = { width := base.needleEdges.width, height := base.needleEdges.height,
            data := warp
              (findBestTranslationScaleAndRotation base warp stepT minRotation maxRotation
                rotationStep minScale maxScale scaleStep junkT junkOutT junkRot junkScale
                junkMat).1.bestRotMat.1
              (findBestTranslationScaleAndRotation base warp stepT minRotation maxRotation
                rotationStep minScale maxScale scaleStep junkT junkOutT junkRot junkScale
                junkMat).1.bestRotMat.2 } := by
  have hp0 : ((minRotation, minScale) : ℤ × ℚ)
      ∈ poseList minRotation maxRotation rotationStep minScale maxScale scaleStep := by
    obtain ⟨tr, htr⟩ := intRangeIncl_head hrot hrs
    obtain ⟨ts, hts⟩ := ratRangeIncl_head hsc hss
    unfold poseList
    rw [htr, List.flatMap_cons, hts, List.map_cons, List.cons_append]
    exact List.mem_cons_self _ _
  have hlt0 : poseDist base warp stepT junkT ((minRotation, minScale) : ℤ × ℚ)
      < doubleMax :=
    findBestTranslationRecursive_lt (poseCtx base warp minRotation minScale) stepT junkT
      hstep hax hay hb
  obtain ⟨pre, post, hdec, hd1, hd2, hd3, hd4, hpre⟩ :=
    poseFold_first base warp stepT junkT
      (poseList minRotation maxRotation rotationStep minScale maxScale scaleStep)
      { bestDistance := doubleMax, bestTranslationOut := junkOutT,
        bestRotationOut := junkRot, bestScaleOut := junkScale, bestRotMat := junkMat }
      ⟨(minRotation, minScale), hp0, hlt0⟩
  refine ⟨pre, post, hdec, hd1, hd2, hd3, hd4, hpre, ?_, rfl⟩
  intro q hq
  exact poseFold_lb base warp stepT junkT _ _ q hq

/-- Constant warp collaborator for witnesses: every pose yields the
all-edge single-pixel needle data (the data of `tinyNeedle`). -/
def warpConst : ℤ → ℚ → ℤ → ℤ → ℤ := fun _ _ _ _ => 0

/-- Concrete pose-search run shared by the C8 and amended-C9 witnesses:
a one-pose sweep on the tiny context. -/
def c8run : PoseState × GrayImage :=
  findBestTranslationScaleAndRotation tinyCtx warpConst 1 0 0 1 1 1 1 (0, 0) (0, 0) 0 1 (3, 5)

/-- Witness for C8 at a concrete input. -/
theorem C8_needle_witness :
    ((0:ℤ) ≤ 0 ∧ (0:ℤ) < 1 ∧ (1:ℚ) ≤ 1 ∧ (0:ℚ) < 1 ∧ (1:ℤ) ≤ 1 ∧
      1 ≤ absMaxX tinyCtx ∧ 1 ≤ absMaxY tinyCtx ∧
      symObjective (poseCtx tinyCtx warpConst 0 1) 0 0 < doubleMax) ∧
    (∃ pre post,
      poseList 0 0 1 1 1 1 = pre ++ c8run.1.bestRotMat :: post ∧
      c8run.1.bestDistance = poseDist tinyCtx warpConst 1 (0, 0) c8run.1.bestRotMat ∧
      c8run.1.bestTranslationOut = poseTrans tinyCtx warpConst 1 (0, 0) c8run.1.bestRotMat ∧
      c8run.1.bestRotationOut = c8run.1.bestRotMat.1 ∧
      c8run.1.bestScaleOut = c8run.1.bestRotMat.2 ∧
      (∀ q ∈ pre, c8run.1.bestDistance < poseDist tinyCtx warpConst 1 (0, 0) q) ∧
      (∀ q ∈ poseList 0 0 1 1 1 1,
        c8run.1.bestDistance ≤ poseDist tinyCtx warpConst 1 (0, 0) q) ∧
      c8run.2 = { width := tinyCtx.needleEdges.width, height := tinyCtx.needleEdges.height,
                  data := warpConst c8run.1.bestRotMat.1 c8run.1.bestRotMat.2 }) :=
  ⟨⟨by decide, by decide, by decide, by decide, by decide, by decide, by decide, by decide⟩,
    C8_needle_ends_at_best_pose tinyCtx warpConst 1 0 0 1 1 1 1 (0, 0) (0, 0) 0 1 (3, 5)
      (by decide) (by decide) (by decide) (by decide) (by decide) (by decide) (by decide)
      (by decide)⟩

/-- C9 counterexample needle: 2 by 1, both pixels on-edge. -/
def c9Needle : GrayImage :=
  { width := 2, height := 1, data := fun x y => if (x = 0 ∨ x = 1) ∧ y = 0 then 0 else 255 }

/-- Distance field of `c9Needle` (exact L1 distance to its edge set). -/
def c9NeedleDT : FloatImage :=
  { width := 2, height := 1,
    data := fun x y => ((min x.natAbs (x - 1).natAbs + y.natAbs : ℕ) : ℚ) }

/-- C9 counterexample haystack: 3 by 2 with one edge pixel at the origin. -/
def c9HayEdges : GrayImage :=
  { width := 3, height := 2, data := fun x y => if x = 0 ∧ y = 0 then 0 else 255 }

/-- Distance field of `c9HayEdges` (exact L1 distance to the origin). -/
def c9HayDT : FloatImage :=
  { width := 3, height := 2, data := fun x y => ((x.natAbs + y.natAbs : ℕ) : ℚ) }

/-- Context of the C9 counterexample. -/
def c9Base : Ctx :=
  { needleEdges := c9Needle, needleDT := c9NeedleDT,
    haystackEdges := c9HayEdges, haystackDT := c9HayDT }

/-- Warp collaborator of the C9 counterexample: rotation 0 reproduces the
original needle data exactly; the rotated pose keeps only the edge pixel
at the origin (a contract-respecting output of the affine warp). -/
def c9Warp : ℤ → ℚ → ℤ → ℤ → ℤ := fun r _ x y =>
  if r = 0 then (if (x = 0 ∨ x = 1) ∧ y = 0 then 0 else 255)
  else (if x = 0 ∧ y = 0 then 0 else 255)

/-- Concrete pose-search run of the C9 counterexample: sweep rotations 0
and 4 at scale 1. -/
def c9run : PoseState × GrayImage :=
  findBestTranslationScaleAndRotation c9Base c9Warp 1 0 4 4 1 1 1 (0, 0) (0, 0) 0 1 (7, 7)

/-- C9 counterexample: on `c9Base` the rotated pose (rotation 4, scale 1)
wins the sweep, so after completion the needle edge map holds the warp
at that pose, which differs from the pre-search needle at pixel (1, 0):
the map is not restored to its original state. -/
theorem C9_counterexample :
    c9run.2.data 1 0 = 255 ∧ c9Base.needleEdges.data 1 0 = 0 ∧
    c9run.2 ≠ c9Base.needleEdges := by
  have hsl : ratRangeIncl (1:ℚ) 1 1 = [1] := by
    rw [ratRangeIncl_unfold, if_pos (by norm_num)]
    rw [show (1:ℚ) + 1 = 2 by norm_num]
    rw [ratRangeIncl_unfold, if_neg (by norm_num)]
  have hdata : c9run.2.data 1 0 = 255 := by
    unfold c9run findBestTranslationScaleAndRotation poseList
    rw [hsl]
    decide
  refine ⟨hdata, by decide, ?_⟩
  intro h
  have h2 := congrArg (fun img : GrayImage => img.data 1 0) h
  have h3 : (255:ℤ) = 0 := by
    calc (255:ℤ) = c9run.2.data 1 0 := hdata.symm
      _ = c9Base.needleEdges.data 1 0 := h2
      _ = 0 := by decide
  exact absurd h3 (by decide)

/-- C9 (amended): the pose search does not restore the needle edge map
to its pre-search state; it completes with the map overwritten by the
original needle warped at the winning pose (main.cpp line 161 warps the
backup with `bestRotMat`), so the map ends equal to its pre-search
contents exactly in the case that the winning transform reproduces
them. -/
theorem C9_restored_iff_warp_fixes (base : Ctx) (warp : ℤ → ℚ → ℤ → ℤ → ℤ)
    (stepT minRotation maxRotation rotationStep : ℤ)
    (minScale maxScale scaleStep : ℚ)
    (junkT junkOutT : ℤ × ℤ) (junkRot : ℤ) (junkScale : ℚ) (junkMat : ℤ × ℚ)
    (hw : warp
        (findBestTranslationScaleAndRotation base warp stepT minRotation maxRotation
          rotationStep minScale maxScale scaleStep junkT junkOutT junkRot junkScale
          junkMat).1.bestRotMat.1
        (findBestTranslationScaleAndRotation base warp stepT minRotation maxRotation
          rotationStep minScale maxScale scaleStep junkT junkOutT junkRot junkScale
          junkMat).1.bestRotMat.2
      = base.needleEdges.data) :
    (findBestTranslationScaleAndRotation base warp stepT minRotation maxRotation
        rotationStep minScale maxScale scaleStep junkT junkOutT junkRot junkScale
        junkMat).2
      = { width := base.needleEdges.width, height := base.needleEdges.height,
          data := warp
            (findBestTranslationScaleAndRotation base warp stepT minRotation maxRotation
              rotationStep minScale maxScale scaleStep junkT junkOutT junkRot junkScale
              junkMat).1.bestRotMat.1
            (findBestTranslationScaleAndRotation base warp stepT minRotation maxRotation
              rotationStep minScale maxScale scaleStep junkT junkOutT junkRot junkScale
              junkMat).1.bestRotMat.2 } ∧
    (findBestTranslationScaleAndRotation base warp stepT minRotation maxRotation
        rotationStep minScale maxScale scaleStep junkT junkOutT junkRot junkScale
        junkMat).2
      = base.needleEdges := by
  refine ⟨rfl, ?_⟩
  show ({ width := base.needleEdges.width, height := base.needleEdges.height,
          data := warp
                    (findBestTranslationScaleAndRotation base warp stepT minRotation
                      maxRotation rotationStep minScale maxScale scaleStep junkT junkOutT
                      junkRot junkScale junkMat).1.bestRotMat.1
                    (findBestTranslationScaleAndRotation base warp stepT minRotation
                      maxRotation rotationStep minScale maxScale scaleStep junkT junkOutT
                      junkRot junkScale junkMat).1.bestRotMat.2 } : GrayImage)
      = base.needleEdges
  rw [hw]

/-- Witness for the amended C9 at a concrete input: on the tiny context
with the constant warp, the winning transform reproduces the original
needle data, and the map ends restored. -/
theorem C9_restored_witness :
    (warpConst c8run.1.bestRotMat.1 c8run.1.bestRotMat.2 = tinyCtx.needleEdges.data) ∧
    (c8run.2 = { width := tinyCtx.needleEdges.width, height := tinyCtx.needleEdges.height,
                 data := warpConst c8run.1.bestRotMat.1 c8run.1.bestRotMat.2 } ∧
      c8run.2 = tinyCtx.needleEdges) :=
  ⟨rfl,
    C9_restored_iff_warp_fixes tinyCtx warpConst 1 0 0 1 1 1 1 (0, 0) (0, 0) 0 1 (3, 5) rfl⟩

end HFind

